import Mathlib

/-!
Verification of the `huffman_format` Huffman file codec.

The development shallowly embeds the Rust sources:
  * `bitpack/src/write.rs` — `BitWriter` (`write_bits`, `write_byte`, `flush`);
  * `bitpack/src/read.rs`  — `BitReader` (`try_read_bits`, `try_read_byte`,
    `read_bits`, `read_byte`, `read_bytes`);
  * `bitpack/src/compact/compact_numbers.rs` — `CompactNumberU64`;
  * `src/table.rs` — byte frequency table;
  * `src/tree.rs`  — `HeapNode`, `HuffmanCodeBuilder`, `HuffmanCode`,
    `get_huffman_tree_and_codes`, tree (de)serialization;
  * `src/lib.rs`   — `pack_file` / `unpack_file`.

Machine integers (`u8`, `u64`) are modelled as `Nat` with explicit masking
(`% 256`, `% 2 ^ k`) where Rust wraps or truncates; `x & m`, `x | y`,
`x << k`, `x >> k` are modelled by `Nat.land`, `Nat.lor`, `* 2 ^ k` (with a
`% 256` wrap where the Rust type is `u8`) and `/ 2 ^ k`.  Byte streams are
`List Nat` of values `< 256`.  Fallible operations return `Option` (for the
soft-EOF `try_read_*` interface) or `Except Err` (for hard reads); Rust
panics (`unreachable!`, `unwrap` failures, fuel exhaustion of the tree
parser's recursion, which the Rust code bounds by the available input bits)
are modelled by the distinguished error `Err.panicked`.
-/

namespace HuffmanFmt

/-! ### Bit sequences

LSB-first bit order within a byte is the wire-format commitment of the
codec; `lowBitsLE n v` is the list of the `n` low bits of `v`, least
significant first, which is exactly the order `BitWriter` emits and
`BitReader` consumes bits of a byte. -/

/-- The `n` low bits of `v`, least-significant bit first. -/
def lowBitsLE : Nat → Nat → List Bool
  | 0, _ => []
  | n + 1, v => decide (v % 2 = 1) :: lowBitsLE n (v / 2)

/-- Value of an LSB-first bit list. -/
def bitsToNat : List Bool → Nat
  | [] => 0
  | b :: t => (if b then 1 else 0) + 2 * bitsToNat t

/-- All bits of a byte stream, LSB-first within each byte. -/
def bitsOfBytes (l : List Nat) : List Bool := l.flatMap (lowBitsLE 8)

/-! ### Errors

`io::Result` errors produced by the codec.  `eof` is `ErrorKind::UnexpectedEof`,
`invalidData` is `ErrorKind::InvalidData`; `panicked` stands for a Rust panic
(`unreachable!`, a failing `unwrap`, or exhaustion of the fuel that bounds the
tree parser's recursion).  Source/sink I/O errors cannot arise in the model
because the underlying streams are pure lists. -/

deriving instance DecidableEq for Except

inductive Err where
  | eof
  | invalidData
  | panicked
deriving DecidableEq, Repr

/-! ### Bit writer (`bitpack/src/write.rs`) -/

/-- Model of `u8_mask` (`bitpack/src/lib.rs`):
`1u8.checked_shl(s).unwrap_or(0).wrapping_sub(1)`; for `s < 8` this is
`(1 << s) - 1`, for `s ≥ 8` the shift fails, giving `0u8.wrapping_sub(1) = 255`. -/
def u8_mask (s : Nat) : Nat := if s < 8 then 2 ^ s - 1 else 255

/-- State of `BitWriter`: the bytes already pushed to the inner sink together
with the partial-byte accumulator `bit_buff` and its cursor `bit_cursor`. -/
structure WSt where
  out : List Nat
  bit_buff : Nat
  bit_cursor : Nat
deriving DecidableEq, Repr

def WSt.init : WSt := ⟨[], 0, 0⟩

/-- The `BitWrite::write_byte` implementation of `BitWriter`.  Source-variable
correspondence: `bits_to_consume = 8 - bit_cursor`, `mask = u8_mask bits_to_consume`,
`byte_to_send = bit_buff | (byte & mask) << bit_cursor` (a `u8` shift, hence the
`% 256`); the new accumulator is `byte.checked_shr(bits_to_consume).unwrap_or(0)`,
i.e. `byte / 2 ^ bits_to_consume`. -/
def writeByte (byte : Nat) (st : WSt) : WSt :=
  { out := st.out ++
      [st.bit_buff ||| (byte &&& u8_mask (8 - st.bit_cursor)) * 2 ^ st.bit_cursor % 256]
    bit_buff := byte / 2 ^ (8 - st.bit_cursor)
    bit_cursor := st.bit_cursor }

/-- The `BitWrite::write_bits` implementation of `BitWriter`.  The leading
`assert!(amount <= u8::BITS)` is met at every call site; source-variable
correspondence: `remaining_bits = 8 - bit_cursor`,
`bits_to_consume = min remaining_bits amount`, and when the byte fills
(`new_bit_cursor = bit_cursor + amount ≥ 8`) the buffered byte is emitted and
`bit_buff` becomes `bits.checked_shr(bits_to_consume).unwrap_or(0) & u8_mask (new_bit_cursor - 8)`. -/
def writeBits (bits amount : Nat) (st : WSt) : WSt :=
  if amount = 8 then writeByte bits st
  else if 8 ≤ st.bit_cursor + amount then
    { out := st.out ++
        [st.bit_buff |||
          (bits &&& u8_mask (min (8 - st.bit_cursor) amount)) * 2 ^ st.bit_cursor % 256]
      bit_buff := bits / 2 ^ min (8 - st.bit_cursor) amount
        &&& u8_mask (st.bit_cursor + amount - 8)
      bit_cursor := st.bit_cursor + amount - 8 }
  else
    { st with
      bit_buff := st.bit_buff |||
        (bits &&& u8_mask (min (8 - st.bit_cursor) amount)) * 2 ^ st.bit_cursor % 256
      bit_cursor := st.bit_cursor + amount }

/-- The `BitWrite::flush` implementation of `BitWriter`. -/
def flush (st : WSt) : WSt :=
  if st.bit_cursor ≠ 0 then
    { out := st.out ++ [st.bit_buff], bit_buff := 0, bit_cursor := 0 }
  else st

/-- Writer invariant: the accumulator holds exactly `bit_cursor < 8` live bits
and the emitted bytes are byte values. -/
def WInv (st : WSt) : Prop :=
  st.bit_cursor < 8 ∧ st.bit_buff < 2 ^ st.bit_cursor ∧ ∀ b ∈ st.out, b < 256

/-- Abstraction of a writer state: the bit stream accepted so far. -/
def wBits (st : WSt) : List Bool :=
  bitsOfBytes st.out ++ lowBitsLE st.bit_cursor st.bit_buff

/-- The `BitWrite::write_bytes` default method (`bitpack/src/write.rs`) with
`last_byte_amount = None` (the only form the codec uses): each byte of the
slice is written in order via `write_byte`; an empty slice is a no-op. -/
def writeBytesNone (bytes : List Nat) (st : WSt) : WSt :=
  bytes.foldl (fun s b => writeByte b s) st

/-! ### Bit reader (`bitpack/src/read.rs`) -/

/-- State of `BitReader`: the bytes not yet fetched from the inner source,
the one-byte staging buffer `bit_buff`, and the bit cursor inside it. -/
structure RSt where
  input : List Nat
  bit_buff : Option Nat
  bit_cursor : Nat
deriving DecidableEq, Repr

def RSt.init (input : List Nat) : RSt := ⟨input, none, 0⟩

/-- The free function `try_read_one_byte`: fetch one byte from the inner
reader, `none` at EOF. -/
def tryReadOneByte (st : RSt) : Option Nat × RSt :=
  match st.input with
  | [] => (none, st)
  | b :: t => (some b, { st with input := t })

/-- `BitReader::fill_buff`: populate the staging buffer if it is empty. -/
def fillBuff (st : RSt) : Option Nat × RSt :=
  match st.bit_buff with
  | some b => (some b, st)
  | none =>
    match st.input with
    | [] => (none, st)
    | b :: t => (some b, { st with input := t, bit_buff := some b })

/-- `BitRead::try_read_byte` for `BitReader`.  The helper
`extract_part(buff, size, offset) = buff.checked_shr(offset).unwrap_or(0) & u8_mask(size)`
is inlined as `buff / 2 ^ offset &&& u8_mask size`; after assembling the
result the Rust code refetches `self.bit_buff` from the inner reader
(`self.bit_buff = try_read_one_byte(..)?`), and when `bottom_size != 8` a
missing next byte means EOF.  The `top_part << bottom_size` is a `u8` shift,
hence the `% 256`. -/
def tryReadByte (st : RSt) : Option (Nat × RSt) :=
  match fillBuff st with
  | (none, _) => none
  | (some bit_buff, st1) =>
    match tryReadOneByte st1 with
    | (nxt, st2) =>
      if 8 - st1.bit_cursor ≠ 8 then
        match nxt with
        | some b2 =>
          some ((bit_buff / 2 ^ st1.bit_cursor &&& u8_mask (8 - st1.bit_cursor)) |||
              (b2 / 2 ^ 0 &&& u8_mask st1.bit_cursor) * 2 ^ (8 - st1.bit_cursor) % 256,
            { st2 with bit_buff := nxt })
        | none => none
      else
        some (bit_buff / 2 ^ st1.bit_cursor &&& u8_mask (8 - st1.bit_cursor),
          { st2 with bit_buff := nxt })

/-- `BitRead::try_read_bits` for `BitReader`.  The leading
`assert!(amount <= u8::BITS)` is met at every call site.  Source-variable
correspondence: `bits_remaining = 8 - bit_cursor`,
`bottom_size = min bits_remaining amount`, `new_bit_cursor = bit_cursor +
amount`; when the staging byte is exhausted (`new_bit_cursor ≥ 8`) the buffer
is cleared and, if `new_bit_cursor - 8 > 0`, the next byte is fetched (EOF if
missing, with the cleared buffer left behind) and its low bits are or-ed into
the high part of the result (a `u8` shift, hence the `% 256`). -/
def tryReadBits (amount : Nat) (st : RSt) : Option (Nat × RSt) :=
  if amount = 8 then tryReadByte st
  else
    match fillBuff st with
    | (none, _) => none
    | (some bit_buff, st1) =>
      if 8 ≤ st1.bit_cursor + amount then
        if 0 < st1.bit_cursor + amount - 8 then
          match tryReadOneByte { st1 with bit_buff := none } with
          | (none, _) => none
          | (some b2, st2) =>
            some ((bit_buff / 2 ^ st1.bit_cursor &&&
                u8_mask (min (8 - st1.bit_cursor) amount)) |||
                (b2 &&& u8_mask (st1.bit_cursor + amount - 8))
                  * 2 ^ min (8 - st1.bit_cursor) amount % 256,
              { st2 with bit_buff := some b2, bit_cursor := st1.bit_cursor + amount - 8 })
        else
          some (bit_buff / 2 ^ st1.bit_cursor &&& u8_mask (min (8 - st1.bit_cursor) amount),
            { st1 with bit_buff := none, bit_cursor := st1.bit_cursor + amount - 8 })
      else
        some (bit_buff / 2 ^ st1.bit_cursor &&& u8_mask (min (8 - st1.bit_cursor) amount),
          { st1 with bit_cursor := st1.bit_cursor + amount })

/-- `BitRead::read_bits`: hard-read wrapper turning soft EOF into
`ErrorKind::UnexpectedEof`. -/
def readBits (amount : Nat) (st : RSt) : Except Err (Nat × RSt) :=
  match tryReadBits amount st with
  | none => .error .eof
  | some r => .ok r

/-- `BitRead::read_byte`: hard-read wrapper turning soft EOF into
`ErrorKind::UnexpectedEof`. -/
def readByte (st : RSt) : Except Err (Nat × RSt) :=
  match tryReadByte st with
  | none => .error .eof
  | some r => .ok r

/-- `BitRead::read_bytes` with `last_byte_amount = None` (the only form the
codec uses): `n` whole bytes in order via `read_byte`; `n = 0` is a no-op. -/
def readBytesNone : Nat → RSt → Except Err (List Nat × RSt)
  | 0, st => .ok ([], st)
  | n + 1, st =>
    match readByte st with
    | .error e => .error e
    | .ok (b, st1) =>
      match readBytesNone n st1 with
      | .error e => .error e
      | .ok (bs, st2) => .ok (b :: bs, st2)

/-- Reader invariant: the cursor stays below 8, buffered and pending bytes are
byte values, and an empty buffer with a non-zero cursor only arises after the
source is exhausted (the EOF path of `try_read_byte` / `try_read_bits`). -/
def RInv (st : RSt) : Prop :=
  st.bit_cursor < 8 ∧ (∀ b, st.bit_buff = some b → b < 256)
    ∧ (∀ b ∈ st.input, b < 256)
    ∧ (st.bit_buff = none → st.bit_cursor ≠ 0 → st.input = [])

/-- Abstraction of a reader state: the unread bits (the not-yet-consumed high
bits of the staging byte, then the bits of the unfetched bytes). -/
def rBits (st : RSt) : List Bool :=
  (match st.bit_buff with
   | some b => lowBitsLE (8 - st.bit_cursor) (b / 2 ^ st.bit_cursor)
   | none => []) ++ bitsOfBytes st.input

/-- A sequence of `write_bits(v, n)` calls folded over the writer. -/
def writeSeq (ops : List (Nat × Nat)) (st : WSt) : WSt :=
  ops.foldl (fun s p => writeBits p.1 p.2 s) st

/-- A sequence of `try_read_bits(n)` calls folded over the reader, collecting
the values; `none` as soon as a read returns the EOF sentinel. -/
def readSeq : List Nat → RSt → Option (List Nat × RSt)
  | [], st => some ([], st)
  | n :: t, st =>
    match tryReadBits n st with
    | none => none
    | some (v, st1) =>
      match readSeq t st1 with
      | none => none
      | some (vs, st2) => some (v :: vs, st2)

/-- The bit stream denoted by a sequence of `write_bits` calls. -/
def opsBits (ops : List (Nat × Nat)) : List Bool :=
  ops.flatMap (fun p => lowBitsLE p.2 p.1)

/-! ### Compact `u64` codec (`bitpack/src/compact/compact_numbers.rs`) -/

/-- The loop bound of `required_number_of_bytes`:
`u64::checked_shl(1, n*8).unwrap_or(0).wrapping_sub(1)`, i.e. `2 ^ (8 n) - 1`
for `n * 8 < 64` and `u64::MAX` once the shift overflows. -/
def maxForBytes (n : Nat) : Nat := if n * 8 < 64 then 2 ^ (n * 8) - 1 else 2 ^ 64 - 1

/-- The loop of `required_number_of_bytes`, driven by the fuel `9 - n`; for a
`u64` value the test at `n = 8` always succeeds, so the fuel is never
exhausted. -/
def requiredNumberOfBytesAux (v : Nat) : Nat → Nat → Nat
  | n, 0 => n
  | n, fuel + 1 => if v ≤ maxForBytes n then n else requiredNumberOfBytesAux v (n + 1) fuel

/-- `<u64 as NumberInfo>::required_number_of_bytes`: the smallest `n ≥ 1` such
that the value fits in `n` bytes. -/
def required_number_of_bytes (v : Nat) : Nat := requiredNumberOfBytesAux v 1 8

/-- The first `k` bytes of `v.to_le_bytes()`. -/
def leBytes : Nat → Nat → List Nat
  | _, 0 => []
  | v, k + 1 => v % 256 :: leBytes (v / 256) k

/-- `u64::from_le_bytes` of the read buffer: the first `k` entries hold the
bytes read, the remaining entries stay zero, so the value is the little-endian
value of the read bytes. -/
def leToNat : List Nat → Nat
  | [] => 0
  | b :: t => b + 256 * leToNat t

/-- `CompactNumberU64::write`: one length byte, then `bytes_required`
little-endian value bytes (`self.0.to_le_bytes()[..bytes_required]`) via
`write_bytes(..., None)`. -/
def compactWrite (v : Nat) (st : WSt) : WSt :=
  writeBytesNone (leBytes v (required_number_of_bytes v))
    (writeByte (required_number_of_bytes v) st)

/-- `CompactNumberU64::read`: one length byte, rejected as `InvalidData` when
it exceeds `MAX_BYTES_REQUIRED = 8`, then that many bytes via
`read_bytes(..., None)`, zero-extended little-endian. -/
def compactRead (st : RSt) : Except Err (Nat × RSt) :=
  match readByte st with
  | .error e => .error e
  | .ok (bytes_required, st1) =>
    if 8 < bytes_required then .error .invalidData
    else
      match readBytesNone bytes_required st1 with
      | .error e => .error e
      | .ok (bytes, st2) => .ok (leToNat bytes, st2)

/-! ### Huffman tree (`src/tree.rs`) -/

/-- `tree::consts::LEAF_FLAG`. -/
def LEAF_FLAG : Nat := 0

/-- `tree::consts::PAIR_FLAG`. -/
def PAIR_FLAG : Nat := 1

/-- `tree::consts::TYPE_FLAG_SIZE`. -/
def TYPE_FLAG_SIZE : Nat := 1

/-- `tree::consts::LEFT_BIT`. -/
def LEFT_BIT : Nat := 0

/-- `tree::consts::RIGHT_BIT`. -/
def RIGHT_BIT : Nat := 1

/-- The `HeapNode` tree (`src/tree.rs`): leaf with byte value, interior pair,
or the read-side-only `Empty` sentinel. -/
inductive HeapNode where
  | Leaf (byte : Nat)
  | Pair (left right : HeapNode)
  | Empty
deriving DecidableEq, Repr

/-- `<HeapNode as BitWritable>::write`: preorder, a 1-bit tag then the 8-bit
value for leaves, tag then both subtrees for pairs; writing `Empty` is the
Rust panic `"Empty leaf representation are only allowed when reading."`. -/
def writeNode : HeapNode → WSt → Except Err WSt
  | .Leaf byte, st => .ok (writeByte byte (writeBits LEAF_FLAG TYPE_FLAG_SIZE st))
  | .Pair l r, st =>
    match writeNode l (writeBits PAIR_FLAG TYPE_FLAG_SIZE st) with
    | .error e => .error e
    | .ok st1 => writeNode r st1
  | .Empty, _ => .error .panicked

/-- `<HeapNode as BitReadable>::read`, with explicit fuel bounding the
recursion depth (each call consumes at least one bit before recursing, so any
fuel above the number of unread bits is never exhausted; exhaustion is
modelled as a panic, as is the `_ => unreachable!()` arm of the tag match). -/
def readNode : Nat → RSt → Except Err (HeapNode × RSt)
  | 0, _ => .error .panicked
  | fuel + 1, st =>
    match readBits TYPE_FLAG_SIZE st with
    | .error e => .error e
    | .ok (flag, st1) =>
      if flag = LEAF_FLAG then
        match readByte st1 with
        | .error e => .error e
        | .ok (b, st2) => .ok (.Leaf b, st2)
      else if flag = PAIR_FLAG then
        match readNode fuel st1 with
        | .error e => .error e
        | .ok (left, st2) =>
          match readNode fuel st2 with
          | .error e => .error e
          | .ok (right, st3) => .ok (.Pair left right, st3)
      else .error .panicked

/-- `HeapNode::try_read_root`: EOF on the very first tag bit means an empty
file (`Ok(None)`); after parsing, a bare `Leaf` root is wrapped into
`Pair { left: leaf, right: Empty }`. -/
def tryReadRoot (fuel : Nat) (st : RSt) : Except Err (Option (HeapNode × RSt)) :=
  match tryReadBits 1 st with
  | none => .ok none
  | some (flag, st1) =>
    if flag = LEAF_FLAG then
      match readByte st1 with
      | .error e => .error e
      | .ok (b, st2) => .ok (some (.Pair (.Leaf b) .Empty, st2))
    else if flag = PAIR_FLAG then
      match readNode fuel st1 with
      | .error e => .error e
      | .ok (left, st2) =>
        match readNode fuel st2 with
        | .error e => .error e
        | .ok (right, st3) => .ok (some (.Pair left right, st3))
    else .error .panicked

/-- The bit stream of a serialized tree. -/
def nodeBits : HeapNode → List Bool
  | .Leaf b => false :: lowBitsLE 8 b
  | .Pair l r => true :: (nodeBits l ++ nodeBits r)
  | .Empty => []

/-- Well-formed write-side trees: no `Empty` sentinel, byte-valued leaves. -/
def HeapNode.WFT : HeapNode → Prop
  | .Leaf b => b < 256
  | .Pair l r => HeapNode.WFT l ∧ HeapNode.WFT r
  | .Empty => False

/-- Number of nodes of a tree. -/
def HeapNode.size : HeapNode → Nat
  | .Leaf _ => 1
  | .Pair l r => 1 + l.size + r.size
  | .Empty => 1

/-! ### Byte table (`src/table.rs`) -/

/-- `table::BYTE_TABLE_LEN = u8::MAX + 1`. -/
def BYTE_TABLE_LEN : Nat := 256

/-- `get_byte_table`: the counting pass (`byte_table[*byte] += 1` for every
input byte); the 256-entry array is modelled as a function. -/
def get_byte_table (data : List Nat) : Nat → Nat :=
  data.foldl (fun t b => Function.update t b (t b + 1)) (fun _ => 0)

/-- `byte_table.iter().sum()`. -/
def tableTotal (t : Nat → Nat) : Nat := ((List.range BYTE_TABLE_LEN).map t).sum

/-! ### Huffman codes and their builder (`src/tree.rs`) -/

/-- `HuffmanCode(Vec<u8>, usize)`: the stored code bytes (first byte partial)
and the bit count of the first byte. -/
structure HuffmanCode where
  bytes : List Nat
  partial_count : Nat
deriving DecidableEq, Repr

/-- `HuffmanCodeBuilder` state. -/
structure HCB where
  bit_cursor : Nat
  bytes : List Nat
  bit_buff : Nat
deriving DecidableEq, Repr

/-- `HuffmanCodeBuilder::new`. -/
def HCB.new : HCB := ⟨0, [], 0⟩

/-- `HuffmanCodeBuilder::write_bit` (the Rust asserts `bit <= 1`): a full
accumulator is pushed first, then the bit is shifted in on the low side
(`bit_buff <<= 1; bit_buff |= bit`, a `u8` shift, hence the `% 256`). -/
def HCB.write_bit (bit : Nat) (s : HCB) : HCB :=
  if s.bit_cursor = 8 then
    { bit_cursor := 0 + 1, bytes := s.bytes ++ [s.bit_buff], bit_buff := 0 * 2 % 256 ||| bit }
  else
    { bit_cursor := s.bit_cursor + 1, bytes := s.bytes,
      bit_buff := s.bit_buff * 2 % 256 ||| bit }

/-- `HuffmanCodeBuilder::finish`: push any partial accumulator, reverse the
byte vector, and keep the pre-push cursor as the first-byte bit count. -/
def HCB.finish (s : HCB) : HuffmanCode :=
  if s.bit_cursor ≠ 0 then ⟨(s.bytes ++ [s.bit_buff]).reverse, s.bit_cursor⟩
  else ⟨s.bytes.reverse, s.bit_cursor⟩

/-- `<HuffmanCode as BitWritable>::write`: nothing for an empty byte vector,
otherwise `partial_count` low bits of the first byte, then each remaining
byte whole (the loop of `write_byte` calls coincides with
`writeBytesNone`). -/
def writeCode (hc : HuffmanCode) (st : WSt) : WSt :=
  match hc.bytes with
  | [] => st
  | b0 :: rest => writeBytesNone rest (writeBits b0 hc.partial_count st)

/-- The bit stream emitted for a `HuffmanCode`. -/
def codeBits (hc : HuffmanCode) : List Bool :=
  match hc.bytes with
  | [] => []
  | b0 :: rest => lowBitsLE hc.partial_count b0 ++ bitsOfBytes rest

/-- Builder abstraction: the bits received so far in append order (first
appended bit first; within each stored byte the first appended bit is the
most significant). -/
def hcbBits (s : HCB) : List Bool :=
  s.bytes.flatMap (fun b => (lowBitsLE 8 b).reverse)
    ++ (lowBitsLE s.bit_cursor s.bit_buff).reverse

/-- Builder invariant. -/
def HCBInv (s : HCB) : Prop :=
  s.bit_cursor ≤ 8 ∧ s.bit_buff < 2 ^ s.bit_cursor ∧ (∀ b ∈ s.bytes, b < 256)
    ∧ (s.bit_cursor = 0 → s.bytes = [] ∧ s.bit_buff = 0)

/-! ### Tree construction (`src/tree.rs`) -/

/-- `write_bit_to_node`: append `bit` to the builder of every leaf under the
node.  (The 256-entry builder array is a function; the `Empty` arm panics in
Rust and is unreachable from `get_huffman_tree_and_codes`, whose work list
never contains `Empty` — it is modelled as the identity.) -/
def write_bit_to_node : HeapNode → Nat → (Nat → HCB) → (Nat → HCB)
  | .Leaf byte, bit, B => Function.update B byte ((B byte).write_bit bit)
  | .Pair l r, bit, B => write_bit_to_node r bit (write_bit_to_node l bit B)
  | .Empty, _, B => B

/-- The stable descending sort by count:
`nodes.sort_by_key(|(count, _)| Reverse(*count))`.  Rust's `sort_by_key` is a
stable sort; stable sorts by the same key agree extensionally, so it is
modelled by the stable insertion sort. -/
def sortNodes (nodes : List (Nat × HeapNode)) : List (Nat × HeapNode) :=
  nodes.insertionSort (fun a b => b.1 ≤ a.1)

/-- The `while nodes.len() > 1` merge loop of `get_huffman_tree_and_codes`,
with fuel `nodes.length` (one node is removed per iteration, so the fuel is
never exhausted; the two-element patterns on the reversed sorted list model
the two `pop().unwrap()` calls, whose failure would be a panic but is
unreachable for lists of length `> 1`).  The second-popped node becomes the
left child and its leaves receive `LEFT_BIT`; the first-popped becomes the
right child and its leaves receive `RIGHT_BIT`. -/
def buildLoop : Nat → (Nat → HCB) → List (Nat × HeapNode) →
    ((Nat → HCB) × List (Nat × HeapNode))
  | 0, B, nodes => (B, nodes)
  | fuel + 1, B, nodes =>
    if nodes.length ≤ 1 then (B, nodes)
    else
      match (sortNodes nodes).reverse with
      | [] => (B, nodes)
      | [_] => (B, nodes)
      | (right_count, right_node) :: (left_count, left_node) :: restRev =>
        buildLoop fuel
          (write_bit_to_node right_node RIGHT_BIT
            (write_bit_to_node left_node LEFT_BIT B))
          (restRev.reverse ++ [(left_count + right_count, .Pair left_node right_node)])

/-- The initial work list: all symbols with non-zero count as leaves
(`byte_table.into_iter().enumerate().filter(count != 0)`). -/
def initialNodes (byte_table : Nat → Nat) : List (Nat × HeapNode) :=
  (List.range BYTE_TABLE_LEN).filterMap
    (fun byte => if byte_table byte ≠ 0 then some (byte_table byte, HeapNode.Leaf byte)
      else none)

/-- The final `reprs` table: an entry is `Some` exactly when the finished
builder has a non-empty byte vector. -/
def finishTable (B : Nat → HCB) : Nat → Option HuffmanCode :=
  fun index => if ((B index).finish).bytes = [] then none else some ((B index).finish)

/-- The post-loop single-leaf fix-up: a bare `Leaf` root gets one `LEFT_BIT`
fed to its builder. -/
def postRootBit (root : HeapNode) (B : Nat → HCB) : Nat → HCB :=
  match root with
  | .Leaf _ => write_bit_to_node root LEFT_BIT B
  | _ => B

/-- `get_huffman_tree_and_codes`: `None` for the all-zero table, otherwise
the Huffman tree root and the 256-entry code table.  The `getLast?` models
the final `nodes.pop().unwrap()`; its `none` arm is unreachable because the
loop keeps the work list non-empty. -/
def get_huffman_tree_and_codes (byte_table : Nat → Nat) :
    Option (HeapNode × (Nat → Option HuffmanCode)) :=
  if (initialNodes byte_table).isEmpty then none
  else
    match buildLoop (initialNodes byte_table).length (fun _ => HCB.new)
        (initialNodes byte_table) with
    | (B, final) =>
      match final.getLast? with
      | none => none
      | some (_, root) => some (root, finishTable (postRootBit root B))

/-! ### Container pack / unpack (`src/lib.rs`) -/

/-- The inner decode loop of `unpack_file`: walk the tree along one codeword
and emit the leaf byte.  Reaching `Empty` is the malformed-data
(`InvalidData`) error; a bit other than `LEFT_BIT`/`RIGHT_BIT` is the
`unreachable!()` arm. -/
def decodeOne : HeapNode → RSt → Except Err (Nat × RSt)
  | .Leaf byte, st => .ok (byte, st)
  | .Pair l r, st =>
    match readBits 1 st with
    | .error e => .error e
    | .ok (child_bit, st1) =>
      if child_bit = LEFT_BIT then decodeOne l st1
      else if child_bit = RIGHT_BIT then decodeOne r st1
      else .error .panicked
  | .Empty, _ => .error .invalidData

/-- The outer decode loop of `unpack_file` (`while bytes_read <
total_byte_count`); each pass emits exactly one byte. -/
def decodeLoop (root : HeapNode) : Nat → RSt → List Nat → Except Err (List Nat × RSt)
  | 0, st, acc => .ok (acc, st)
  | n + 1, st, acc =>
    match decodeOne root st with
    | .error e => .error e
    | .ok (b, st1) => decodeLoop root n st1 (acc ++ [b])

/-- `unpack_file`: parse the tree root (zero bytes decoded on immediate EOF),
read the compact total byte count, then decode that many bytes.  Returns the
sink contents and `bytes_read`.  The tree parser's fuel `8 * input.length + 9`
exceeds the number of available bits, so it is never exhausted (proved
below). -/
def unpack_file (input : List Nat) : Except Err (List Nat × Nat) :=
  match tryReadRoot (8 * input.length + 9) (RSt.init input) with
  | .error e => .error e
  | .ok none => .ok ([], 0)
  | .ok (some (root, st1)) =>
    match compactRead st1 with
    | .error e => .error e
    | .ok (total, st2) =>
      match decodeLoop root total st2 [] with
      | .error e => .error e
      | .ok (out, _) => .ok (out, total)

/-- The encode loop of `pack_file`: look up each input byte's code
(`code_table[*byte as usize].as_ref().unwrap()`, a panic when absent) and
write it. -/
def packData (codes : Nat → Option HuffmanCode) : List Nat → WSt → Except Err WSt
  | [], st => .ok st
  | b :: t, st =>
    match codes b with
    | none => .error .panicked
    | some code => packData codes t (writeCode code st)

/-- `pack_file`: count bytes, build tree and codes (an all-zero table returns
0 bytes written), then write the tree, the compact total count and the
codeword stream, flush, and return the sink contents with the `ByteCounter`
byte count. -/
def pack_file (data : List Nat) : Except Err (List Nat × Nat) :=
  match get_huffman_tree_and_codes (get_byte_table data) with
  | none => .ok ([], 0)
  | some (root, code_table) =>
    match writeNode root WSt.init with
    | .error e => .error e
    | .ok st1 =>
      match packData code_table data (compactWrite (tableTotal (get_byte_table data)) st1) with
      | .error e => .error e
      | .ok st3 => .ok ((flush st3).out, (flush st3).out.length)

/-- Leaf byte values of a tree, left to right. -/
def HeapNode.leaves : HeapNode → List Nat
  | .Leaf b => [b]
  | .Pair l r => l.leaves ++ r.leaves
  | .Empty => []

/-- Root-to-leaf path of the symbol `b` (`false` = left, `true` = right),
i.e. the decoder's walk to the leaf carrying `b`. -/
def pathTo : HeapNode → Nat → Option (List Bool)
  | .Leaf b', b => if b' = b then some [] else none
  | .Pair l r, b =>
    match pathTo l b with
    | some p => some (false :: p)
    | none =>
      match pathTo r b with
      | some p => some (true :: p)
      | none => none
  | .Empty, _ => none

/-- Invariant of the merge loop: the work-list leaves enumerate the symbol
set `S` without duplicates, nodes are well-formed, every placed symbol's
builder holds the reversed path to its leaf inside its node, and builders of
absent symbols are fresh. -/
def NodesInv (S : List Nat) (B : Nat → HCB) (nodes : List (Nat × HeapNode)) : Prop :=
  (nodes.flatMap (fun p => p.2.leaves)).Perm S
  ∧ (nodes.flatMap (fun p => p.2.leaves)).Nodup
  ∧ (∀ p ∈ nodes, p.2.WFT)
  ∧ (∀ p ∈ nodes, ∀ x ∈ p.2.leaves, ∃ q, pathTo p.2 x = some q
      ∧ hcbBits (B x) = q.reverse)
  ∧ (∀ x, x ∉ S → B x = HCB.new)
  ∧ (∀ x, HCBInv (B x))

/-- The read-side wrapping of a bare-leaf root (`try_read_root`). -/
def wrapRoot (root : HeapNode) : HeapNode :=
  match root with
  | .Leaf b => .Pair (.Leaf b) .Empty
  | t => t

/-! ### Theorems -/

@[simp] theorem lowBitsLE_zero (v : Nat) : lowBitsLE 0 v = [] := rfl

@[simp] theorem lowBitsLE_length (n v : Nat) : (lowBitsLE n v).length = n := by
  induction n generalizing v with
  | zero => rfl
  | succ n ih => simp [lowBitsLE, ih]

theorem lowBitsLE_congr {n v w : Nat} (h : v % 2 ^ n = w % 2 ^ n) :
    lowBitsLE n v = lowBitsLE n w := by
  induction n generalizing v w with
  | zero => rfl
  | succ n ih =>
    have hpow : (2 : Nat) ^ (n + 1) = 2 * 2 ^ n := by ring
    have h2 : v % 2 = w % 2 := by
      have hv : v % 2 ^ (n + 1) % 2 = v % 2 := Nat.mod_mod_of_dvd v ⟨2 ^ n, hpow⟩
      have hw : w % 2 ^ (n + 1) % 2 = w % 2 := Nat.mod_mod_of_dvd w ⟨2 ^ n, hpow⟩
      rw [← hv, ← hw, h]
    have hd : v / 2 % 2 ^ n = w / 2 % 2 ^ n := by
      have hv : v % 2 ^ (n + 1) / 2 = v / 2 % 2 ^ n := by
        rw [hpow]; exact Nat.mod_mul_right_div_self v 2 (2 ^ n)
      have hw : w % 2 ^ (n + 1) / 2 = w / 2 % 2 ^ n := by
        rw [hpow]; exact Nat.mod_mul_right_div_self w 2 (2 ^ n)
      rw [← hv, ← hw, h]
    simp [lowBitsLE, h2, ih hd]

theorem lowBitsLE_mod_self (n v : Nat) : lowBitsLE n (v % 2 ^ n) = lowBitsLE n v :=
  lowBitsLE_congr (Nat.mod_mod_of_dvd v dvd_rfl)

theorem lowBitsLE_split (a b v : Nat) :
    lowBitsLE (a + b) v = lowBitsLE a v ++ lowBitsLE b (v / 2 ^ a) := by
  induction a generalizing v with
  | zero => simp [lowBitsLE]
  | succ a ih =>
    have : a + 1 + b = (a + b) + 1 := by omega
    rw [this]
    simp only [lowBitsLE, ih (v / 2), List.cons_append]
    congr 2
    rw [Nat.div_div_eq_div_mul]
    congr 1
    ring

theorem lowBitsLE_add_mul_pow {x : Nat} (a b y : Nat) (hx : x < 2 ^ a) :
    lowBitsLE (a + b) (x + 2 ^ a * y) = lowBitsLE a x ++ lowBitsLE b y := by
  rw [lowBitsLE_split]
  congr 1
  · exact lowBitsLE_congr (by
      rw [Nat.add_mul_mod_self_left x (2 ^ a) y, Nat.mod_eq_of_lt hx])
  · congr 1
    rw [Nat.add_mul_div_left _ _ (Nat.pos_pow_of_pos a (by norm_num)),
      Nat.div_eq_of_lt hx, Nat.zero_add]

theorem bitsToNat_append (xs ys : List Bool) :
    bitsToNat (xs ++ ys) = bitsToNat xs + 2 ^ xs.length * bitsToNat ys := by
  induction xs with
  | nil => simp [bitsToNat]
  | cons b t ih =>
    simp only [List.cons_append, bitsToNat, List.append_eq, ih, List.length_cons, pow_succ]
    ring

theorem bitsToNat_lt (l : List Bool) : bitsToNat l < 2 ^ l.length := by
  induction l with
  | nil => simp [bitsToNat]
  | cons b t ih =>
    simp only [bitsToNat, List.length_cons, pow_succ]
    cases b <;> simp <;> omega

theorem bitsToNat_lowBitsLE (n v : Nat) : bitsToNat (lowBitsLE n v) = v % 2 ^ n := by
  induction n generalizing v with
  | zero => simp [bitsToNat, lowBitsLE, Nat.mod_one]
  | succ n ih =>
    simp only [lowBitsLE, bitsToNat, ih]
    have h2 : v % 2 ^ (n + 1) = v % 2 + 2 * (v / 2 % 2 ^ n) := by
      rw [show (2 : Nat) ^ (n + 1) = 2 * 2 ^ n by ring]
      exact Nat.mod_mul
    rw [h2]
    rcases Nat.mod_two_eq_zero_or_one v with h | h <;> simp [h]

theorem lowBitsLE_bitsToNat (l : List Bool) : lowBitsLE l.length (bitsToNat l) = l := by
  induction l with
  | nil => rfl
  | cons b t ih =>
    simp only [List.length_cons, lowBitsLE, bitsToNat]
    congr 1
    · cases b <;> simp [Nat.add_mul_mod_self_left]
    · rw [Nat.add_mul_div_left _ _ (by norm_num : (0:Nat) < 2)]
      cases b <;> simpa using ih

theorem lowBitsLE_zero_val (n : Nat) : lowBitsLE n 0 = List.replicate n false := by
  induction n with
  | zero => rfl
  | succ n ih => simp [lowBitsLE, ih, List.replicate_succ]

theorem lowBitsLE_take (n v a : Nat) (h : a ≤ n) :
    (lowBitsLE n v).take a = lowBitsLE a v := by
  have : n = a + (n - a) := by omega
  rw [this, lowBitsLE_split, List.take_append_of_le_length (by simp),
    List.take_of_length_le (by simp)]

theorem lowBitsLE_drop (n v a : Nat) :
    (lowBitsLE n v).drop a = lowBitsLE (n - a) (v / 2 ^ a) := by
  rcases Nat.le_total a n with h | h
  · have : n = a + (n - a) := by omega
    conv_lhs => rw [this, lowBitsLE_split]
    rw [List.drop_append_of_le_length (by simp), List.drop_of_length_le (by simp),
      List.nil_append]
  · rw [List.drop_of_length_le (by simpa using h), show n - a = 0 by omega]
    rfl

@[simp] theorem bitsOfBytes_nil : bitsOfBytes [] = [] := rfl

theorem bitsOfBytes_cons (b : Nat) (l : List Nat) :
    bitsOfBytes (b :: l) = lowBitsLE 8 b ++ bitsOfBytes l := by
  simp [bitsOfBytes]

theorem bitsOfBytes_append (l₁ l₂ : List Nat) :
    bitsOfBytes (l₁ ++ l₂) = bitsOfBytes l₁ ++ bitsOfBytes l₂ := by
  simp [bitsOfBytes]

theorem bitsOfBytes_length (l : List Nat) : (bitsOfBytes l).length = 8 * l.length := by
  induction l with
  | nil => rfl
  | cons b t ih => simp [bitsOfBytes_cons, ih]; ring

theorem WInv_init : WInv WSt.init := by
  unfold WInv WSt.init
  refine ⟨by norm_num, by norm_num, ?_⟩
  intro b hb
  simp at hb

theorem u8_mask_eq {s : Nat} (h : s ≤ 8) : u8_mask s = 2 ^ s - 1 := by
  unfold u8_mask
  rcases Nat.lt_or_ge s 8 with h8 | h8
  · simp [h8]
  · have hs : s = 8 := by omega
    subst hs
    norm_num

theorem land_u8_mask (x : Nat) {s : Nat} (h : s ≤ 8) : x &&& u8_mask s = x % 2 ^ s := by
  rw [u8_mask_eq h]
  exact Nat.and_pow_two_sub_one_eq_mod x s

theorem lor_disjoint {x : Nat} (c y : Nat) (hx : x < 2 ^ c) :
    x ||| 2 ^ c * y = x + 2 ^ c * y := by
  rw [Nat.lor_comm, ← Nat.mul_add_lt_is_or hx y]
  omega

theorem pow_mul_pow_sub_eq (c : Nat) (h : c ≤ 8) : 2 ^ c * 2 ^ (8 - c) = 256 := by
  rw [← pow_add]
  have hce : c + (8 - c) = 8 := by omega
  rw [hce]
  norm_num

/-- Shared accumulator algebra: or-ing `(x & u8_mask k) << c` (with `k ≤ 8 - c`)
into an accumulator holding `c` live bits is addition, and the result is the
accumulator bits followed by the `k` low bits of `x`. -/
theorem accum_eq {w c : Nat} (x k : Nat) (hc : c < 8) (hk : k ≤ 8 - c)
    (hbuf : w < 2 ^ c) :
    w ||| (x &&& u8_mask k) * 2 ^ c % 256 = w + 2 ^ c * (x % 2 ^ k) := by
  have hmask : x &&& u8_mask k = x % 2 ^ k := land_u8_mask x (by omega)
  have hxk : x % 2 ^ k < 2 ^ k := Nat.mod_lt _ (Nat.pos_pow_of_pos _ (by norm_num))
  have hsmall : x % 2 ^ k * 2 ^ c < 256 := by
    calc x % 2 ^ k * 2 ^ c < 2 ^ k * 2 ^ c :=
          (Nat.mul_lt_mul_right (Nat.pos_pow_of_pos _ (by norm_num))).mpr hxk
      _ ≤ 2 ^ (8 - c) * 2 ^ c := by
          exact Nat.mul_le_mul_right _ (Nat.pow_le_pow_right (by norm_num) hk)
      _ = 256 := by rw [Nat.mul_comm]; exact pow_mul_pow_sub_eq c (by omega)
  rw [hmask, Nat.mod_eq_of_lt hsmall, Nat.mul_comm]
  exact lor_disjoint c _ hbuf

theorem accum_lt {w c k : Nat} (x : Nat) (hc : c < 8) (hk : k ≤ 8 - c)
    (hbuf : w < 2 ^ c) : w + 2 ^ c * (x % 2 ^ k) < 2 ^ (c + k) := by
  have hxk : x % 2 ^ k < 2 ^ k := Nat.mod_lt _ (Nat.pos_pow_of_pos _ (by norm_num))
  have h1 : 2 ^ c * (x % 2 ^ k) + 2 ^ c ≤ 2 ^ c * 2 ^ k := by
    have := Nat.mul_le_mul_left (2 ^ c) (Nat.succ_le_of_lt hxk)
    simpa [Nat.mul_succ] using this
  have h2 : (2 : Nat) ^ c * 2 ^ k = 2 ^ (c + k) := by rw [← pow_add]
  omega

/-- Bit-stream view of the shared accumulator algebra. -/
theorem accum_bits {w c : Nat} (x k : Nat) (hck : c + k ≤ 8) (hbuf : w < 2 ^ c) :
    lowBitsLE (c + k) (w + 2 ^ c * (x % 2 ^ k)) = lowBitsLE c w ++ lowBitsLE k x := by
  rw [lowBitsLE_add_mul_pow c k _ hbuf, lowBitsLE_mod_self]

/-- `write_byte` appends the eight bits of its argument to the bit stream. -/
theorem wBits_writeByte {st : WSt} {y : Nat} (hb : y < 256) (hw : WInv st) :
    wBits (writeByte y st) = wBits st ++ lowBitsLE 8 y ∧ WInv (writeByte y st) := by
  obtain ⟨hc, hbuf, hout⟩ := hw
  set c := st.bit_cursor with hcdef
  have hsend := accum_eq (w := st.bit_buff) y (8 - c) hc (le_refl _) hbuf
  have hlt : st.bit_buff + 2 ^ c * (y % 2 ^ (8 - c)) < 256 := by
    have h := accum_lt (w := st.bit_buff) y hc (le_refl (8 - c)) hbuf
    have hce : c + (8 - c) = 8 := by omega
    rw [hce] at h
    omega
  have hbits : lowBitsLE 8 (st.bit_buff + 2 ^ c * (y % 2 ^ (8 - c)))
      = lowBitsLE c st.bit_buff ++ lowBitsLE (8 - c) y := by
    have h := accum_bits (w := st.bit_buff) y (8 - c) (by omega) hbuf
    have hce : c + (8 - c) = 8 := by omega
    rw [hce] at h
    exact h
  have hsplit : lowBitsLE 8 y
      = lowBitsLE (8 - c) y ++ lowBitsLE c (y / 2 ^ (8 - c)) := by
    have h := lowBitsLE_split (8 - c) c y
    have hce : (8 - c) + c = 8 := by omega
    rw [hce] at h
    exact h
  refine ⟨?_, hc, ?_, ?_⟩
  · show bitsOfBytes (st.out ++ [st.bit_buff ||| (y &&& u8_mask (8 - c)) * 2 ^ c % 256])
        ++ lowBitsLE c (y / 2 ^ (8 - c))
      = (bitsOfBytes st.out ++ lowBitsLE c st.bit_buff) ++ lowBitsLE 8 y
    rw [bitsOfBytes_append, hsend]
    rw [show bitsOfBytes [st.bit_buff + 2 ^ c * (y % 2 ^ (8 - c))]
        = lowBitsLE 8 (st.bit_buff + 2 ^ c * (y % 2 ^ (8 - c))) by simp [bitsOfBytes]]
    rw [hbits, hsplit]
    simp [List.append_assoc]
  · show y / 2 ^ (8 - c) < 2 ^ c
    rw [Nat.div_lt_iff_lt_mul (Nat.pos_pow_of_pos _ (by norm_num))]
    calc y < 256 := hb
      _ = 2 ^ c * 2 ^ (8 - c) := (pow_mul_pow_sub_eq c (by omega)).symm
  · intro b hbmem
    simp only [writeByte, List.mem_append, List.mem_singleton] at hbmem
    rcases hbmem with hbmem | hbmem
    · exact hout b hbmem
    · rw [hbmem, hsend]
      exact hlt

/-- `write_bits` appends the low `amount` bits of its argument to the bit
stream (`amount ≤ 8` as asserted in the source; for a full y the value is a
`u8`). -/
theorem wBits_writeBits {st : WSt} {v a : Nat} (ha : a ≤ 8) (hv : a = 8 → v < 256)
    (hw : WInv st) :
    wBits (writeBits v a st) = wBits st ++ lowBitsLE a v ∧ WInv (writeBits v a st) := by
  rcases eq_or_ne a 8 with h8 | h8
  · subst h8
    rw [show writeBits v 8 st = writeByte v st from rfl]
    exact wBits_writeByte (hv rfl) hw
  · obtain ⟨hc, hbuf, hout⟩ := hw
    set c := st.bit_cursor with hcdef
    have ha7 : a ≤ 7 := by omega
    rcases Nat.lt_or_ge (c + a) 8 with hcase | hcase
    · have heq : writeBits v a st = { st with
          bit_buff := st.bit_buff ||| (v &&& u8_mask (min (8 - c) a)) * 2 ^ c % 256
          bit_cursor := c + a } := by
        unfold writeBits
        rw [if_neg h8, if_neg (by omega)]
      have hmin : min (8 - c) a = a := by omega
      have hacc := accum_eq (w := st.bit_buff) v a hc (by omega) hbuf
      have habits := accum_bits (w := st.bit_buff) v a (by omega) hbuf
      rw [heq]
      refine ⟨?_, by simpa using by omega, ?_, ?_⟩
      · show bitsOfBytes st.out ++
            lowBitsLE (c + a) (st.bit_buff ||| (v &&& u8_mask (min (8 - c) a)) * 2 ^ c % 256)
          = (bitsOfBytes st.out ++ lowBitsLE c st.bit_buff) ++ lowBitsLE a v
        rw [hmin, hacc, habits, List.append_assoc]
      · show st.bit_buff ||| (v &&& u8_mask (min (8 - c) a)) * 2 ^ c % 256 < 2 ^ (c + a)
        rw [hmin, hacc]
        exact accum_lt v hc (by omega) hbuf
      · exact hout
    · have heq : writeBits v a st =
          { out := st.out ++
              [st.bit_buff ||| (v &&& u8_mask (min (8 - c) a)) * 2 ^ c % 256]
            bit_buff := v / 2 ^ min (8 - c) a &&& u8_mask (c + a - 8)
            bit_cursor := c + a - 8 } := by
        unfold writeBits
        rw [if_neg h8, if_pos (by omega)]
      have hmin : min (8 - c) a = 8 - c := by omega
      have hacc := accum_eq (w := st.bit_buff) v (8 - c) hc (le_refl _) hbuf
      have hnewc : c + a - 8 ≤ 8 := by omega
      have hnewbuff : v / 2 ^ (8 - c) &&& u8_mask (c + a - 8)
          = v / 2 ^ (8 - c) % 2 ^ (c + a - 8) := land_u8_mask _ hnewc
      have hfull : lowBitsLE 8 (st.bit_buff + 2 ^ c * (v % 2 ^ (8 - c)))
          = lowBitsLE c st.bit_buff ++ lowBitsLE (8 - c) v := by
        have h := accum_bits (w := st.bit_buff) v (8 - c) (by omega) hbuf
        have hce : c + (8 - c) = 8 := by omega
        rw [hce] at h
        exact h
      have hsplit : lowBitsLE a v
          = lowBitsLE (8 - c) v ++ lowBitsLE (c + a - 8) (v / 2 ^ (8 - c)) := by
        have h := lowBitsLE_split (8 - c) (c + a - 8) v
        have hce : (8 - c) + (c + a - 8) = a := by omega
        rw [hce] at h
        exact h
      have hlt : st.bit_buff + 2 ^ c * (v % 2 ^ (8 - c)) < 256 := by
        have h := accum_lt (w := st.bit_buff) v hc (le_refl (8 - c)) hbuf
        have hce : c + (8 - c) = 8 := by omega
        rw [hce] at h
        omega
      rw [heq]
      refine ⟨?_, by simpa using by omega, ?_, ?_⟩
      · show bitsOfBytes (st.out ++
              [st.bit_buff ||| (v &&& u8_mask (min (8 - c) a)) * 2 ^ c % 256])
            ++ lowBitsLE (c + a - 8) (v / 2 ^ min (8 - c) a &&& u8_mask (c + a - 8))
          = (bitsOfBytes st.out ++ lowBitsLE c st.bit_buff) ++ lowBitsLE a v
        rw [hmin, hnewbuff, lowBitsLE_mod_self, bitsOfBytes_append, hacc]
        rw [show bitsOfBytes [st.bit_buff + 2 ^ c * (v % 2 ^ (8 - c))]
            = lowBitsLE 8 (st.bit_buff + 2 ^ c * (v % 2 ^ (8 - c))) by simp [bitsOfBytes]]
        rw [hfull, hsplit]
        simp [List.append_assoc]
      · show v / 2 ^ min (8 - c) a &&& u8_mask (c + a - 8) < 2 ^ (c + a - 8)
        rw [hmin, hnewbuff]
        exact Nat.mod_lt _ (Nat.pos_pow_of_pos _ (by norm_num))
      · intro b hbmem
        simp only [List.mem_append, List.mem_singleton] at hbmem
        rcases hbmem with hbmem | hbmem
        · exact hout b hbmem
        · rw [hbmem, hmin, hacc]
          exact hlt

/-- `flush` pads the pending bits with high zero bits to the next byte
boundary and resets the accumulator. -/
theorem flush_spec {st : WSt} (hw : WInv st) :
    bitsOfBytes (flush st).out
        = wBits st ++ List.replicate ((8 - st.bit_cursor) % 8) false
      ∧ (flush st).bit_cursor = 0 ∧ (flush st).bit_buff = 0 ∧ WInv (flush st) := by
  obtain ⟨hc, hbuf, hout⟩ := hw
  rcases eq_or_ne st.bit_cursor 0 with h0 | h0
  · have heq : flush st = st := by unfold flush; rw [if_neg (by simpa using h0)]
    have hb0 : st.bit_buff = 0 := by
      rw [h0] at hbuf
      omega
    rw [heq]
    refine ⟨?_, h0, hb0, hc, hbuf, hout⟩
    rw [h0]
    simp [wBits, h0, hb0, lowBitsLE_zero]
  · have heq : flush st = { out := st.out ++ [st.bit_buff], bit_buff := 0, bit_cursor := 0 } := by
      unfold flush
      rw [if_pos (by simpa using h0)]
    have hpad : (8 - st.bit_cursor) % 8 = 8 - st.bit_cursor := by
      apply Nat.mod_eq_of_lt
      omega
    have hsplit : lowBitsLE 8 st.bit_buff
        = lowBitsLE st.bit_cursor st.bit_buff
            ++ List.replicate (8 - st.bit_cursor) false := by
      have h := lowBitsLE_split st.bit_cursor (8 - st.bit_cursor) st.bit_buff
      have hce : st.bit_cursor + (8 - st.bit_cursor) = 8 := by omega
      rw [hce] at h
      rw [h, Nat.div_eq_of_lt hbuf, lowBitsLE_zero_val]
    rw [heq]
    refine ⟨?_, rfl, rfl, by norm_num, by norm_num, ?_⟩
    · show bitsOfBytes (st.out ++ [st.bit_buff])
        = (bitsOfBytes st.out ++ lowBitsLE st.bit_cursor st.bit_buff)
          ++ List.replicate ((8 - st.bit_cursor) % 8) false
      rw [bitsOfBytes_append, hpad,
        show bitsOfBytes [st.bit_buff] = lowBitsLE 8 st.bit_buff by simp [bitsOfBytes],
        hsplit, List.append_assoc]
    · intro b hbmem
      simp only [List.mem_append, List.mem_singleton] at hbmem
      rcases hbmem with hbmem | hbmem
      · exact hout b hbmem
      · rw [hbmem]
        calc st.bit_buff < 2 ^ st.bit_cursor := hbuf
          _ ≤ 2 ^ 8 := Nat.pow_le_pow_right (by norm_num) (by omega)
          _ = 256 := by norm_num

theorem wBits_writeBytesNone {l : List Nat} (hb : ∀ b ∈ l, b < 256) :
    ∀ st : WSt, WInv st →
      wBits (writeBytesNone l st) = wBits st ++ bitsOfBytes l
        ∧ WInv (writeBytesNone l st) := by
  induction l with
  | nil =>
    intro st hw
    simpa [writeBytesNone] using hw
  | cons b t ih =>
    intro st hw
    obtain ⟨h1, h2⟩ := wBits_writeByte (hb b (by simp)) hw
    have hrec := ih (fun x hx => hb x (by simp [hx])) (writeByte b st) h2
    refine ⟨?_, hrec.2⟩
    show wBits (writeBytesNone t (writeByte b st)) = _
    rw [hrec.1, h1, bitsOfBytes_cons, List.append_assoc]

theorem RInv_init (input : List Nat) (h : ∀ b ∈ input, b < 256) :
    RInv (RSt.init input) := by
  refine ⟨by simp [RSt.init], ?_, h, ?_⟩
  · intro b hb
    simp [RSt.init] at hb
  · intro _ hc
    simp [RSt.init] at hc

theorem rBits_init (input : List Nat) : rBits (RSt.init input) = bitsOfBytes input := by
  simp [rBits, RSt.init]

/-- Successful `fill_buff` under the invariant: when unread bits remain the
staging buffer gets populated without changing the unread bit stream. -/
theorem fillBuff_eq {st : RSt} (hinv : RInv st) (hne : (rBits st).length ≠ 0) :
    ∃ b l, fillBuff st
        = (some b, { input := l, bit_buff := some b, bit_cursor := st.bit_cursor })
      ∧ b < 256 ∧ (∀ x ∈ l, x < 256)
      ∧ rBits st = lowBitsLE (8 - st.bit_cursor) (b / 2 ^ st.bit_cursor) ++ bitsOfBytes l := by
  obtain ⟨inp, bf, cur⟩ := st
  obtain ⟨hc, hbuf, hin, hwedge⟩ := hinv
  cases bf with
  | some b =>
    refine ⟨b, inp, by simp [fillBuff], hbuf b rfl, hin, by simp [rBits]⟩
  | none =>
    cases hl : inp with
    | nil =>
      exfalso
      apply hne
      simp [rBits, hl]
    | cons b t =>
      have hc0 : cur = 0 := by
        by_contra h
        have hw := hwedge rfl h
        rw [hl] at hw
        simp at hw
      subst hc0
      subst hl
      refine ⟨b, t, by simp [fillBuff], hin b (by simp), fun x hx => hin x (by simp [hx]), ?_⟩
      simp [rBits, bitsOfBytes_cons]

/-- Value staged past the cursor is below `2 ^ (8 - cursor)`. -/
theorem staged_div_lt {b c : Nat} (hb : b < 256) (hc : c ≤ 8) : b / 2 ^ c < 2 ^ (8 - c) := by
  rw [Nat.div_lt_iff_lt_mul (Nat.pos_pow_of_pos _ (by norm_num))]
  calc b < 256 := hb
    _ = 2 ^ (8 - c) * 2 ^ c := by
        rw [← pow_add]
        have hce : 8 - c + c = 8 := by omega
        rw [hce]
        norm_num

/-- `try_read_byte` under the invariant: if the unread bit stream starts with
eight bits `pre`, the call returns their value and leaves exactly the rest. -/
theorem tryReadByte_split {st : RSt} (hinv : RInv st) {pre rest : List Bool}
    (hsplit : rBits st = pre ++ rest) (hpre : pre.length = 8) :
    ∃ st', tryReadByte st = some (bitsToNat pre, st') ∧ rBits st' = rest ∧ RInv st' := by
  have hlen : (rBits st).length ≠ 0 := by
    rw [hsplit]
    simp [hpre]
  obtain ⟨b, l, hfill, hb, hl, hrb⟩ := fillBuff_eq hinv hlen
  have hc : st.bit_cursor < 8 := hinv.1
  have hbc : b / 2 ^ st.bit_cursor < 2 ^ (8 - st.bit_cursor) := staged_div_lt hb (by omega)
  have hbyte0 : b / 2 ^ st.bit_cursor &&& u8_mask (8 - st.bit_cursor)
      = b / 2 ^ st.bit_cursor := by
    rw [land_u8_mask _ (by omega), Nat.mod_eq_of_lt hbc]
  rcases eq_or_ne st.bit_cursor 0 with hc0 | hc0
  · -- aligned read: the result is the staged byte itself
    have hdecomp : rBits st = lowBitsLE 8 b ++ bitsOfBytes l := by
      rw [hrb, hc0, pow_zero, Nat.div_one]
    have huniq : pre = lowBitsLE 8 b ∧ rest = bitsOfBytes l :=
      List.append_inj (by rw [← hsplit, hdecomp]) (by simp [hpre])
    have hval : bitsToNat pre = b := by
      rw [huniq.1, bitsToNat_lowBitsLE, Nat.mod_eq_of_lt (by omega)]
    cases l with
    | nil =>
      refine ⟨⟨[], none, st.bit_cursor⟩, ?_, ?_, ?_⟩
      · rw [show tryReadByte st = some (b / 2 ^ st.bit_cursor &&& u8_mask (8 - st.bit_cursor),
            ⟨[], none, st.bit_cursor⟩) by
          simp [tryReadByte, hfill, tryReadOneByte, hc0]]
        rw [hbyte0, hc0, pow_zero, Nat.div_one, hval]
      · rw [huniq.2]
        simp [rBits]
      · exact ⟨hc, by simp, by simp, fun _ _ => rfl⟩
    | cons b2 t =>
      refine ⟨⟨t, some b2, st.bit_cursor⟩, ?_, ?_, ?_⟩
      · rw [show tryReadByte st = some (b / 2 ^ st.bit_cursor &&& u8_mask (8 - st.bit_cursor),
            ⟨t, some b2, st.bit_cursor⟩) by
          simp [tryReadByte, hfill, tryReadOneByte, hc0]]
        rw [hbyte0, hc0, pow_zero, Nat.div_one, hval]
      · rw [huniq.2, bitsOfBytes_cons, hc0]
        simp [rBits]
      · refine ⟨hc, ?_, fun x hx => hl x (by simp [hx]), by simp⟩
        intro x hx
        rw [Option.some.injEq] at hx
        subst hx
        exact hl b2 (by simp)
  · -- unaligned read crosses into the next byte, which must exist
    have hlne : l ≠ [] := by
      intro hnil
      rw [hrb, hnil] at hsplit
      have := congrArg List.length hsplit
      simp [hpre] at this
      omega
    obtain ⟨b2, t, rfl⟩ := List.exists_cons_of_ne_nil hlne
    have hb2 : b2 < 256 := hl b2 (by simp)
    have hb2split : lowBitsLE 8 b2
        = lowBitsLE st.bit_cursor b2
          ++ lowBitsLE (8 - st.bit_cursor) (b2 / 2 ^ st.bit_cursor) := by
      have h := lowBitsLE_split st.bit_cursor (8 - st.bit_cursor) b2
      have hce : st.bit_cursor + (8 - st.bit_cursor) = 8 := by omega
      rw [hce] at h
      exact h
    have hdecomp : rBits st
        = (lowBitsLE (8 - st.bit_cursor) (b / 2 ^ st.bit_cursor)
            ++ lowBitsLE st.bit_cursor b2)
          ++ (lowBitsLE (8 - st.bit_cursor) (b2 / 2 ^ st.bit_cursor) ++ bitsOfBytes t) := by
      rw [hrb, bitsOfBytes_cons, hb2split]
      simp [List.append_assoc]
    have huniq : pre = lowBitsLE (8 - st.bit_cursor) (b / 2 ^ st.bit_cursor)
          ++ lowBitsLE st.bit_cursor b2
        ∧ rest = lowBitsLE (8 - st.bit_cursor) (b2 / 2 ^ st.bit_cursor) ++ bitsOfBytes t :=
      List.append_inj (by rw [← hsplit, hdecomp]) (by simp [hpre]; omega)
    have hval : bitsToNat pre
        = b / 2 ^ st.bit_cursor + 2 ^ (8 - st.bit_cursor) * (b2 % 2 ^ st.bit_cursor) := by
      rw [huniq.1, bitsToNat_append, bitsToNat_lowBitsLE, bitsToNat_lowBitsLE,
        Nat.mod_eq_of_lt hbc]
      simp
    have hcond : ¬(8 - st.bit_cursor = 8) := by omega
    refine ⟨⟨t, some b2, st.bit_cursor⟩, ?_, ?_, ?_⟩
    · rw [show tryReadByte st
          = some ((b / 2 ^ st.bit_cursor &&& u8_mask (8 - st.bit_cursor)) |||
              (b2 / 2 ^ 0 &&& u8_mask st.bit_cursor) * 2 ^ (8 - st.bit_cursor) % 256,
            ⟨t, some b2, st.bit_cursor⟩) by
        simp [tryReadByte, hfill, tryReadOneByte, hcond]]
      have hacc : (b / 2 ^ st.bit_cursor &&& u8_mask (8 - st.bit_cursor)) |||
            (b2 / 2 ^ 0 &&& u8_mask st.bit_cursor) * 2 ^ (8 - st.bit_cursor) % 256
          = b / 2 ^ st.bit_cursor
            + 2 ^ (8 - st.bit_cursor) * (b2 % 2 ^ st.bit_cursor) := by
        rw [hbyte0, pow_zero, Nat.div_one]
        exact accum_eq (w := b / 2 ^ st.bit_cursor) b2 st.bit_cursor (by omega)
          (by omega) hbc
      rw [hacc, hval]
    · rw [huniq.2]
      simp [rBits]
    · refine ⟨hc, ?_, fun x hx => hl x (by simp [hx]), by simp⟩
      intro x hx
      rw [Option.some.injEq] at hx
      subst hx
      exact hb2

/-- `try_read_bits` under the invariant: if the unread bit stream starts with
`amount` bits `pre` (`1 ≤ amount ≤ 8`), the call returns their value
(LSB-first) and leaves exactly the rest. -/
theorem tryReadBits_split {a : Nat} (ha1 : 1 ≤ a) (ha8 : a ≤ 8) {st : RSt}
    (hinv : RInv st) {pre rest : List Bool}
    (hsplit : rBits st = pre ++ rest) (hpre : pre.length = a) :
    ∃ st', tryReadBits a st = some (bitsToNat pre, st') ∧ rBits st' = rest ∧ RInv st' := by
  rcases eq_or_ne a 8 with h8 | h8
  · subst h8
    obtain ⟨st', h1, h2, h3⟩ := tryReadByte_split hinv hsplit hpre
    exact ⟨st', by rw [show tryReadBits 8 st = tryReadByte st from rfl]; exact h1, h2, h3⟩
  · have hlen : (rBits st).length ≠ 0 := by
      rw [hsplit]
      simp [hpre]
      omega
    obtain ⟨b, l, hfill, hb, hl, hrb⟩ := fillBuff_eq hinv hlen
    have hc : st.bit_cursor < 8 := hinv.1
    have hbc : b / 2 ^ st.bit_cursor < 2 ^ (8 - st.bit_cursor) := staged_div_lt hb (by omega)
    rcases Nat.lt_or_ge (st.bit_cursor + a) 8 with hcase | hcase
    · -- the read stays inside the staged byte
      have hmin : min (8 - st.bit_cursor) a = a := by omega
      have hxs : lowBitsLE (8 - st.bit_cursor) (b / 2 ^ st.bit_cursor)
          = lowBitsLE a (b / 2 ^ st.bit_cursor)
            ++ lowBitsLE (8 - (st.bit_cursor + a)) (b / 2 ^ (st.bit_cursor + a)) := by
        have h := lowBitsLE_split a (8 - (st.bit_cursor + a)) (b / 2 ^ st.bit_cursor)
        have hce : a + (8 - (st.bit_cursor + a)) = 8 - st.bit_cursor := by omega
        rw [hce] at h
        rw [h, Nat.div_div_eq_div_mul, ← pow_add]
      have hdecomp : rBits st = lowBitsLE a (b / 2 ^ st.bit_cursor)
          ++ (lowBitsLE (8 - (st.bit_cursor + a)) (b / 2 ^ (st.bit_cursor + a))
            ++ bitsOfBytes l) := by
        rw [hrb, hxs, List.append_assoc]
      have huniq : pre = lowBitsLE a (b / 2 ^ st.bit_cursor)
          ∧ rest = lowBitsLE (8 - (st.bit_cursor + a)) (b / 2 ^ (st.bit_cursor + a))
            ++ bitsOfBytes l :=
        List.append_inj (by rw [← hsplit, hdecomp]) (by simp [hpre])
      refine ⟨⟨l, some b, st.bit_cursor + a⟩, ?_, ?_, ?_⟩
      · rw [show tryReadBits a st
            = some (b / 2 ^ st.bit_cursor &&& u8_mask (min (8 - st.bit_cursor) a),
              ⟨l, some b, st.bit_cursor + a⟩) by
          simp [tryReadBits, hfill, h8, show ¬(8 ≤ st.bit_cursor + a) by omega]]
        rw [hmin, land_u8_mask _ (by omega), huniq.1, bitsToNat_lowBitsLE]
      · rw [huniq.2]
        simp [rBits]
      · refine ⟨(by omega : st.bit_cursor + a < 8), ?_, hl, by simp⟩
        intro x hx
        rw [Option.some.injEq] at hx
        subst hx
        exact hb
    · -- the staged byte is exhausted
      have hmin : min (8 - st.bit_cursor) a = 8 - st.bit_cursor := by omega
      have hbyte0 : b / 2 ^ st.bit_cursor &&& u8_mask (min (8 - st.bit_cursor) a)
          = b / 2 ^ st.bit_cursor := by
        rw [hmin, land_u8_mask _ (by omega), Nat.mod_eq_of_lt hbc]
      rcases eq_or_ne (st.bit_cursor + a) 8 with hexact | hexact
      · -- the read ends exactly at the byte boundary
        have ha' : a = 8 - st.bit_cursor := by omega
        have hdecomp : rBits st = lowBitsLE (8 - st.bit_cursor) (b / 2 ^ st.bit_cursor)
            ++ bitsOfBytes l := hrb
        have huniq : pre = lowBitsLE (8 - st.bit_cursor) (b / 2 ^ st.bit_cursor)
            ∧ rest = bitsOfBytes l :=
          List.append_inj (by rw [← hsplit, hdecomp]) (by simp [hpre]; omega)
        refine ⟨⟨l, none, 0⟩, ?_, ?_, ?_⟩
        · rw [show tryReadBits a st
              = some (b / 2 ^ st.bit_cursor &&& u8_mask (min (8 - st.bit_cursor) a),
                ⟨l, none, st.bit_cursor + a - 8⟩) by
            simp [tryReadBits, hfill, h8, show 8 ≤ st.bit_cursor + a by omega,
              show ¬(0 < st.bit_cursor + a - 8) by omega]]
          rw [hbyte0, huniq.1, bitsToNat_lowBitsLE, Nat.mod_eq_of_lt hbc,
            show st.bit_cursor + a - 8 = 0 by omega]
        · rw [huniq.2]
          simp [rBits]
        · exact ⟨by norm_num, by simp, hl, by simp⟩
      · -- the read crosses into the next byte, which must exist
        have hnew : 0 < st.bit_cursor + a - 8 := by omega
        have hlne : l ≠ [] := by
          intro hnil
          have hlen2 := congrArg List.length (hsplit.symm.trans hrb)
          rw [hnil] at hlen2
          simp [hpre] at hlen2
          omega
        obtain ⟨b2, t, rfl⟩ := List.exists_cons_of_ne_nil hlne
        have hb2 : b2 < 256 := hl b2 (by simp)
        have hb2split : lowBitsLE 8 b2
            = lowBitsLE (st.bit_cursor + a - 8) b2
              ++ lowBitsLE (8 - (st.bit_cursor + a - 8))
                (b2 / 2 ^ (st.bit_cursor + a - 8)) := by
          have h := lowBitsLE_split (st.bit_cursor + a - 8)
            (8 - (st.bit_cursor + a - 8)) b2
          have hce : (st.bit_cursor + a - 8) + (8 - (st.bit_cursor + a - 8)) = 8 := by omega
          rw [hce] at h
          exact h
        have hdecomp : rBits st
            = (lowBitsLE (8 - st.bit_cursor) (b / 2 ^ st.bit_cursor)
                ++ lowBitsLE (st.bit_cursor + a - 8) b2)
              ++ (lowBitsLE (8 - (st.bit_cursor + a - 8)) (b2 / 2 ^ (st.bit_cursor + a - 8))
                ++ bitsOfBytes t) := by
          rw [hrb, bitsOfBytes_cons, hb2split]
          simp [List.append_assoc]
        have huniq : pre = lowBitsLE (8 - st.bit_cursor) (b / 2 ^ st.bit_cursor)
              ++ lowBitsLE (st.bit_cursor + a - 8) b2
            ∧ rest = lowBitsLE (8 - (st.bit_cursor + a - 8))
                (b2 / 2 ^ (st.bit_cursor + a - 8)) ++ bitsOfBytes t :=
          List.append_inj (by rw [← hsplit, hdecomp]) (by simp [hpre]; omega)
        have hval : bitsToNat pre
            = b / 2 ^ st.bit_cursor
              + 2 ^ (8 - st.bit_cursor) * (b2 % 2 ^ (st.bit_cursor + a - 8)) := by
          rw [huniq.1, bitsToNat_append, bitsToNat_lowBitsLE, bitsToNat_lowBitsLE,
            Nat.mod_eq_of_lt hbc]
          simp
        refine ⟨⟨t, some b2, st.bit_cursor + a - 8⟩, ?_, ?_, ?_⟩
        · rw [show tryReadBits a st
              = some ((b / 2 ^ st.bit_cursor &&& u8_mask (min (8 - st.bit_cursor) a)) |||
                  (b2 &&& u8_mask (st.bit_cursor + a - 8))
                    * 2 ^ min (8 - st.bit_cursor) a % 256,
                ⟨t, some b2, st.bit_cursor + a - 8⟩) by
            simp [tryReadBits, hfill, h8, show 8 ≤ st.bit_cursor + a by omega, hnew,
              tryReadOneByte]]
          have hacc : (b / 2 ^ st.bit_cursor &&& u8_mask (min (8 - st.bit_cursor) a)) |||
                (b2 &&& u8_mask (st.bit_cursor + a - 8)) * 2 ^ min (8 - st.bit_cursor) a % 256
              = b / 2 ^ st.bit_cursor
                + 2 ^ (8 - st.bit_cursor) * (b2 % 2 ^ (st.bit_cursor + a - 8)) := by
            rw [hbyte0, hmin]
            exact accum_eq (w := b / 2 ^ st.bit_cursor) b2 (st.bit_cursor + a - 8)
              (by omega) (by omega) hbc
          rw [hacc, hval]
        · rw [huniq.2]
          simp [rBits]
        · refine ⟨(by omega : st.bit_cursor + a - 8 < 8), ?_,
            fun x hx => hl x (by simp [hx]), by simp⟩
          intro x hx
          rw [Option.some.injEq] at hx
          subst hx
          exact hb2

/-- `try_read_bits` returns the EOF sentinel when fewer than `amount` unread
bits remain (`1 ≤ amount ≤ 8`). -/
theorem tryReadBits_fail {a : Nat} (ha1 : 1 ≤ a) (ha8 : a ≤ 8) {st : RSt} (hinv : RInv st)
    (hlen : (rBits st).length < a) : tryReadBits a st = none := by
  obtain ⟨inp, bf, cur⟩ := st
  obtain ⟨hc, hbuf, hin, hwedge⟩ := hinv
  cases bf with
  | none =>
    have hinp : inp = [] := by
      cases hi : inp with
      | nil => rfl
      | cons x t =>
        exfalso
        have hlen2 : (rBits ⟨inp, none, cur⟩).length = 8 * inp.length := by
          simp [rBits, bitsOfBytes_length]
        rw [hlen2, hi] at hlen
        simp at hlen
        omega
    subst hinp
    rcases eq_or_ne a 8 with h8 | h8
    · subst h8
      simp [tryReadBits, tryReadByte, fillBuff]
    · simp [tryReadBits, fillBuff, h8]
  | some b =>
    have hlen' : (8 - cur) + 8 * inp.length < a := by
      have hlen2 : (rBits ⟨inp, some b, cur⟩).length = (8 - cur) + 8 * inp.length := by
        simp [rBits, bitsOfBytes_length]
      omega
    have hinp : inp = [] := by
      cases hi : inp with
      | nil => rfl
      | cons x t =>
        exfalso
        rw [hi] at hlen'
        simp at hlen'
        omega
    subst hinp
    have hcur : 8 - cur < a := by simpa using hlen'
    rcases eq_or_ne a 8 with h8 | h8
    · subst h8
      simp [tryReadBits, tryReadByte, fillBuff, tryReadOneByte,
        show ¬(8 - cur = 8) by omega]
    · simp [tryReadBits, fillBuff, h8, show 8 ≤ cur + a by omega,
        show 0 < cur + a - 8 by omega, tryReadOneByte]

/-- Success of `try_read_bits` (`1 ≤ amount ≤ 8`) consumes exactly `amount`
unread bits, preserves the invariant, and yields a value below `2 ^ amount`. -/
theorem tryReadBits_length {a : Nat} (ha1 : 1 ≤ a) (ha8 : a ≤ 8) {st : RSt}
    (hinv : RInv st) {v : Nat} {st' : RSt} (h : tryReadBits a st = some (v, st')) :
    (rBits st').length + a = (rBits st).length ∧ RInv st' ∧ v < 2 ^ a := by
  rcases Nat.lt_or_ge (rBits st).length a with hlt | hge
  · rw [tryReadBits_fail ha1 ha8 hinv hlt] at h
    exact absurd h (by simp)
  · have hsplit : rBits st = (rBits st).take a ++ (rBits st).drop a :=
      (List.take_append_drop a (rBits st)).symm
    have hpre : ((rBits st).take a).length = a := by
      rw [List.length_take]
      omega
    obtain ⟨st'', h1, h2, h3⟩ := tryReadBits_split ha1 ha8 hinv hsplit hpre
    rw [h] at h1
    have hv : v = bitsToNat ((rBits st).take a) := by
      have := (Option.some.injEq _ _).mp h1
      exact congrArg Prod.fst this
    have hst : st' = st'' := by
      have := (Option.some.injEq _ _).mp h1
      exact congrArg Prod.snd this
    subst hst
    refine ⟨?_, h3, ?_⟩
    · rw [h2, List.length_drop]
      omega
    · rw [hv]
      calc bitsToNat ((rBits st).take a) < 2 ^ ((rBits st).take a).length := bitsToNat_lt _
        _ = 2 ^ a := by rw [hpre]

/-- Reading zero bits: with a staged byte the state is untouched and the
result is `0`; with an empty staging buffer the reader first fetches a byte
from the source (EOF sentinel if the source is exhausted). -/
theorem tryReadBits_zero (st : RSt) (hc : st.bit_cursor < 8) :
    tryReadBits 0 st
      = match st.bit_buff, st.input with
        | some _, _ => some (0, st)
        | none, x :: t => some (0, ⟨t, some x, st.bit_cursor⟩)
        | none, [] => none := by
  obtain ⟨inp, bf, cur⟩ := st
  simp only at hc
  cases bf with
  | some b =>
    have hmask : b / 2 ^ cur &&& u8_mask 0 = 0 := by
      simp [u8_mask]
    simp [tryReadBits, fillBuff, show ¬(8 ≤ cur) by omega, hmask]
  | none =>
    cases inp with
    | nil => simp [tryReadBits, fillBuff]
    | cons x t =>
      have hmask : x / 2 ^ cur &&& u8_mask 0 = 0 := by
        simp [u8_mask]
      simp [tryReadBits, fillBuff, show ¬(8 ≤ cur) by omega, hmask]

theorem wBits_writeSeq {ops : List (Nat × Nat)}
    (hops : ∀ p ∈ ops, p.2 ≤ 8 ∧ (p.2 = 8 → p.1 < 256)) :
    ∀ st : WSt, WInv st →
      wBits (writeSeq ops st) = wBits st ++ opsBits ops ∧ WInv (writeSeq ops st) := by
  induction ops with
  | nil =>
    intro st hw
    simpa [writeSeq, opsBits] using hw
  | cons p t ih =>
    intro st hw
    obtain ⟨h1, h2⟩ := wBits_writeBits (hops p (by simp)).1 (hops p (by simp)).2 hw
    have hrec := ih (fun q hq => hops q (by simp [hq])) (writeBits p.1 p.2 st) h2
    refine ⟨?_, hrec.2⟩
    show wBits (writeSeq t (writeBits p.1 p.2 st)) = _
    rw [hrec.1, h1, show opsBits (p :: t) = lowBitsLE p.2 p.1 ++ opsBits t by
      simp [opsBits], List.append_assoc]

theorem readSeq_split {ops : List (Nat × Nat)}
    (hops : ∀ p ∈ ops, 1 ≤ p.2 ∧ p.2 ≤ 8) :
    ∀ st : RSt, RInv st → ∀ rest : List Bool, rBits st = opsBits ops ++ rest →
      ∃ st', readSeq (ops.map Prod.snd) st
          = some (ops.map (fun p => p.1 % 2 ^ p.2), st')
        ∧ rBits st' = rest ∧ RInv st' := by
  induction ops with
  | nil =>
    intro st hinv rest hr
    refine ⟨st, by simp [readSeq], ?_, hinv⟩
    simpa [opsBits] using hr
  | cons p t ih =>
    intro st hinv rest hr
    have hsplit : rBits st = lowBitsLE p.2 p.1 ++ (opsBits t ++ rest) := by
      rw [hr, show opsBits (p :: t) = lowBitsLE p.2 p.1 ++ opsBits t by simp [opsBits],
        List.append_assoc]
    obtain ⟨st1, hread, hrest, hinv1⟩ := tryReadBits_split (hops p (by simp)).1
      (hops p (by simp)).2 hinv hsplit (by simp)
    obtain ⟨st2, hrec, hrest2, hinv2⟩ := ih (fun q hq => hops q (by simp [hq])) st1 hinv1
      rest hrest
    refine ⟨st2, ?_, hrest2, hinv2⟩
    simp only [List.map_cons, readSeq, hread, hrec, bitsToNat_lowBitsLE]

@[simp] theorem leBytes_length (v k : Nat) : (leBytes v k).length = k := by
  induction k generalizing v with
  | zero => rfl
  | succ k ih => simp [leBytes, ih]

theorem leBytes_lt (v k : Nat) : ∀ b ∈ leBytes v k, b < 256 := by
  induction k generalizing v with
  | zero => intro b hb; simp [leBytes] at hb
  | succ k ih =>
    intro b hb
    simp only [leBytes, List.mem_cons] at hb
    rcases hb with hb | hb
    · subst hb
      exact Nat.mod_lt _ (by norm_num)
    · exact ih (v / 256) b hb

theorem leToNat_leBytes (v k : Nat) (hv : v < 2 ^ (8 * k)) : leToNat (leBytes v k) = v := by
  induction k generalizing v with
  | zero =>
    simp [leBytes, leToNat]
    omega
  | succ k ih =>
    simp only [leBytes, leToNat]
    rw [ih (v / 256) (by
      rw [Nat.div_lt_iff_lt_mul (by norm_num)]
      calc v < 2 ^ (8 * (k + 1)) := hv
        _ = 2 ^ (8 * k) * 256 := by
            rw [show 8 * (k + 1) = 8 * k + 8 by ring, pow_add]
            norm_num)]
    omega

/-- Interval characterization of `required_number_of_bytes` on `u64` values:
it is at least 1, at most 8, the value fits, and it is minimal. -/
theorem required_spec {v : Nat} (hv : v < 2 ^ 64) :
    1 ≤ required_number_of_bytes v ∧ required_number_of_bytes v ≤ 8
      ∧ v < 2 ^ (8 * required_number_of_bytes v)
      ∧ (required_number_of_bytes v = 1 ∨ 2 ^ (8 * (required_number_of_bytes v - 1)) ≤ v) := by
  unfold required_number_of_bytes
  by_cases h1 : v ≤ maxForBytes 1
  · rw [show requiredNumberOfBytesAux v 1 8 = 1 by simp [requiredNumberOfBytesAux, h1]]
    refine ⟨le_refl _, by norm_num, ?_, Or.inl rfl⟩
    unfold maxForBytes at h1
    norm_num at h1 ⊢
    omega
  · by_cases h2 : v ≤ maxForBytes 2
    · rw [show requiredNumberOfBytesAux v 1 8 = 2 by
        simp [requiredNumberOfBytesAux, h1, h2]]
      unfold maxForBytes at h1 h2
      norm_num at h1 h2
      exact ⟨by norm_num, by norm_num, by norm_num; omega, Or.inr (by norm_num; omega)⟩
    · by_cases h3 : v ≤ maxForBytes 3
      · rw [show requiredNumberOfBytesAux v 1 8 = 3 by
          simp [requiredNumberOfBytesAux, h1, h2, h3]]
        unfold maxForBytes at h2 h3
        norm_num at h2 h3
        exact ⟨by norm_num, by norm_num, by norm_num; omega, Or.inr (by norm_num; omega)⟩
      · by_cases h4 : v ≤ maxForBytes 4
        · rw [show requiredNumberOfBytesAux v 1 8 = 4 by
            simp [requiredNumberOfBytesAux, h1, h2, h3, h4]]
          unfold maxForBytes at h3 h4
          norm_num at h3 h4
          exact ⟨by norm_num, by norm_num, by norm_num; omega, Or.inr (by norm_num; omega)⟩
        · by_cases h5 : v ≤ maxForBytes 5
          · rw [show requiredNumberOfBytesAux v 1 8 = 5 by
              simp [requiredNumberOfBytesAux, h1, h2, h3, h4, h5]]
            unfold maxForBytes at h4 h5
            norm_num at h4 h5
            exact ⟨by norm_num, by norm_num, by norm_num; omega, Or.inr (by norm_num; omega)⟩
          · by_cases h6 : v ≤ maxForBytes 6
            · rw [show requiredNumberOfBytesAux v 1 8 = 6 by
                simp [requiredNumberOfBytesAux, h1, h2, h3, h4, h5, h6]]
              unfold maxForBytes at h5 h6
              norm_num at h5 h6
              exact ⟨by norm_num, by norm_num, by norm_num; omega, Or.inr (by norm_num; omega)⟩
            · by_cases h7 : v ≤ maxForBytes 7
              · rw [show requiredNumberOfBytesAux v 1 8 = 7 by
                  simp [requiredNumberOfBytesAux, h1, h2, h3, h4, h5, h6, h7]]
                unfold maxForBytes at h6 h7
                norm_num at h6 h7
                exact ⟨by norm_num, by norm_num, by norm_num; omega, Or.inr (by norm_num; omega)⟩
              · have h8 : v ≤ maxForBytes 8 := by
                  unfold maxForBytes
                  norm_num
                  omega
                rw [show requiredNumberOfBytesAux v 1 8 = 8 by
                  simp [requiredNumberOfBytesAux, h1, h2, h3, h4, h5, h6, h7, h8]]
                unfold maxForBytes at h7
                norm_num at h7
                exact ⟨by norm_num, le_refl _, by norm_num; omega, Or.inr (by norm_num; omega)⟩

/-- `CompactNumberU64::write` appends the length byte and the value bytes to
the bit stream. -/
theorem wBits_compactWrite {v : Nat} (hv : v < 2 ^ 64) {st : WSt} (hw : WInv st) :
    wBits (compactWrite v st)
        = wBits st ++ bitsOfBytes
            (required_number_of_bytes v :: leBytes v (required_number_of_bytes v))
      ∧ WInv (compactWrite v st) := by
  obtain ⟨hk1, hk8, hvk, _⟩ := required_spec hv
  obtain ⟨h1, h2⟩ := wBits_writeByte (y := required_number_of_bytes v) (by omega) hw
  obtain ⟨h3, h4⟩ := wBits_writeBytesNone (leBytes_lt v (required_number_of_bytes v)) _ h2
  refine ⟨?_, h4⟩
  rw [show compactWrite v st = writeBytesNone (leBytes v (required_number_of_bytes v))
      (writeByte (required_number_of_bytes v) st) from rfl, h3, h1,
    bitsOfBytes_cons, List.append_assoc]

theorem writeByte_aligned {st : WSt} (h0 : st.bit_cursor = 0) (hb0 : st.bit_buff = 0)
    {byte : Nat} (hb : byte < 256) : writeByte byte st = ⟨st.out ++ [byte], 0, 0⟩ := by
  obtain ⟨o, bf, c⟩ := st
  simp only at h0 hb0
  subst h0
  subst hb0
  unfold writeByte
  simp [land_u8_mask byte (by norm_num : (8:Nat) ≤ 8), Nat.mod_eq_of_lt hb,
    Nat.div_eq_of_lt hb]

theorem writeBytesNone_aligned {bytes : List Nat} (h : ∀ b ∈ bytes, b < 256) :
    ∀ st : WSt, st.bit_cursor = 0 → st.bit_buff = 0 →
      writeBytesNone bytes st = ⟨st.out ++ bytes, 0, 0⟩ := by
  induction bytes with
  | nil =>
    intro st h0 hb0
    obtain ⟨o, bf, c⟩ := st
    simp only at h0 hb0
    subst h0
    subst hb0
    simp [writeBytesNone]
  | cons b t ih =>
    intro st h0 hb0
    show writeBytesNone t (writeByte b st) = _
    rw [writeByte_aligned h0 hb0 (h b (by simp)),
      ih (fun x hx => h x (by simp [hx])) _ rfl rfl]
    simp

/-- Byte-level form of the compact encoding from an aligned writer. -/
theorem compactWrite_out {v : Nat} (hv : v < 2 ^ 64) :
    compactWrite v WSt.init
      = ⟨required_number_of_bytes v :: leBytes v (required_number_of_bytes v), 0, 0⟩ := by
  obtain ⟨hk1, hk8, hvk, _⟩ := required_spec hv
  show writeBytesNone (leBytes v (required_number_of_bytes v))
      (writeByte (required_number_of_bytes v) WSt.init) = _
  rw [writeByte_aligned rfl rfl (by omega),
    writeBytesNone_aligned (leBytes_lt v _) _ rfl rfl]
  simp [WSt.init]

/-- `read_bytes(.., None)` under the invariant: reads back exactly the listed
bytes. -/
theorem readBytesNone_split {bs : List Nat} (hb : ∀ b ∈ bs, b < 256) :
    ∀ st : RSt, RInv st → ∀ rest : List Bool, rBits st = bitsOfBytes bs ++ rest →
      ∃ st', readBytesNone bs.length st = .ok (bs, st') ∧ rBits st' = rest ∧ RInv st' := by
  induction bs with
  | nil =>
    intro st hinv rest hr
    refine ⟨st, by simp [readBytesNone], ?_, hinv⟩
    simpa using hr
  | cons b t ih =>
    intro st hinv rest hr
    have hsplit : rBits st = lowBitsLE 8 b ++ (bitsOfBytes t ++ rest) := by
      rw [hr, bitsOfBytes_cons, List.append_assoc]
    obtain ⟨st1, hread, hrest, hinv1⟩ := tryReadByte_split hinv hsplit (by simp)
    obtain ⟨st2, hrec, hrest2, hinv2⟩ := ih (fun x hx => hb x (by simp [hx])) st1 hinv1
      rest hrest
    refine ⟨st2, ?_, hrest2, hinv2⟩
    have hblt : b < 256 := hb b (by simp)
    have hval : bitsToNat (lowBitsLE 8 b) = b := by
      rw [bitsToNat_lowBitsLE, Nat.mod_eq_of_lt (show b < 2 ^ 8 by omega)]
    simp only [List.length_cons, readBytesNone, readByte, hread, hval, hrec]

/-- `CompactNumberU64::read` under the invariant: decoding right after an
encoding of a `u64` value returns that value. -/
theorem compactRead_split {v : Nat} (hv : v < 2 ^ 64) {st : RSt} (hinv : RInv st)
    {rest : List Bool}
    (hr : rBits st = bitsOfBytes
        (required_number_of_bytes v :: leBytes v (required_number_of_bytes v)) ++ rest) :
    ∃ st', compactRead st = .ok (v, st') ∧ rBits st' = rest ∧ RInv st' := by
  obtain ⟨hk1, hk8, hvk, _⟩ := required_spec hv
  have hsplit : rBits st = lowBitsLE 8 (required_number_of_bytes v)
      ++ (bitsOfBytes (leBytes v (required_number_of_bytes v)) ++ rest) := by
    rw [hr, bitsOfBytes_cons, List.append_assoc]
  obtain ⟨st1, hread, hrest, hinv1⟩ := tryReadByte_split hinv hsplit (by simp)
  have hval : bitsToNat (lowBitsLE 8 (required_number_of_bytes v))
      = required_number_of_bytes v := by
    rw [bitsToNat_lowBitsLE, Nat.mod_eq_of_lt (by omega)]
  obtain ⟨st2, hbytes, hrest2, hinv2⟩ := readBytesNone_split (leBytes_lt v _) st1 hinv1
    rest hrest
  refine ⟨st2, ?_, hrest2, hinv2⟩
  rw [show (leBytes v (required_number_of_bytes v)).length = required_number_of_bytes v
    from leBytes_length v _] at hbytes
  simp only [compactRead, readByte, hread, hval, if_neg (by omega : ¬8 < required_number_of_bytes v),
    hbytes, leToNat_leBytes v _ hvk]

theorem size_le_nodeBits_length (t : HeapNode) (h : t.WFT) :
    t.size ≤ (nodeBits t).length := by
  induction t with
  | Leaf b => simp [HeapNode.size, nodeBits]
  | Pair l r ihl ihr =>
    obtain ⟨hl, hr⟩ := h
    have h1 := ihl hl
    have h2 := ihr hr
    simp only [HeapNode.size, nodeBits, List.length_cons, List.length_append]
    omega
  | Empty => exact absurd h (by simp [HeapNode.WFT])

/-- Serializing a well-formed tree appends its preorder bit stream. -/
theorem writeNode_spec {t : HeapNode} (hwf : t.WFT) :
    ∀ st : WSt, WInv st →
      ∃ st', writeNode t st = .ok st' ∧ wBits st' = wBits st ++ nodeBits t ∧ WInv st' := by
  induction t with
  | Leaf b =>
    intro st hw
    obtain ⟨h1, h2⟩ := wBits_writeBits (v := LEAF_FLAG) (a := TYPE_FLAG_SIZE)
      (by norm_num [TYPE_FLAG_SIZE]) (by norm_num [TYPE_FLAG_SIZE]) hw
    obtain ⟨h3, h4⟩ := wBits_writeByte (y := b) hwf h2
    refine ⟨_, rfl, ?_, h4⟩
    rw [h3, h1, nodeBits, List.append_assoc]
    congr 1
  | Pair l r ihl ihr =>
    intro st hw
    obtain ⟨hl, hr⟩ := hwf
    obtain ⟨h1, h2⟩ := wBits_writeBits (v := PAIR_FLAG) (a := TYPE_FLAG_SIZE)
      (by norm_num [TYPE_FLAG_SIZE]) (by norm_num [TYPE_FLAG_SIZE]) hw
    obtain ⟨st1, hw1, hb1, hinv1⟩ := ihl hl _ h2
    obtain ⟨st2, hw2, hb2, hinv2⟩ := ihr hr st1 hinv1
    refine ⟨st2, ?_, ?_, hinv2⟩
    · show (match writeNode l (writeBits PAIR_FLAG TYPE_FLAG_SIZE st) with
        | Except.error e => Except.error e
        | Except.ok st1 => writeNode r st1) = Except.ok st2
      rw [hw1]
      exact hw2
    · rw [hb2, hb1, h1, nodeBits]
      simp only [List.append_assoc]
      congr 1
  | Empty => exact absurd hwf (by simp [HeapNode.WFT])

/-- Deserializing with sufficient fuel inverts serialization. -/
theorem readNode_split {t : HeapNode} (hwf : t.WFT) :
    ∀ fuel : Nat, t.size ≤ fuel → ∀ st : RSt, RInv st →
      ∀ rest : List Bool, rBits st = nodeBits t ++ rest →
        ∃ st', readNode fuel st = .ok (t, st') ∧ rBits st' = rest ∧ RInv st' := by
  induction t with
  | Leaf b =>
    intro fuel hfuel st hinv rest hr
    obtain ⟨f, rfl⟩ : ∃ f, fuel = f + 1 := by
      cases fuel with
      | zero => simp [HeapNode.size] at hfuel
      | succ f => exact ⟨f, rfl⟩
    have hsplit : rBits st = lowBitsLE 1 LEAF_FLAG ++ (lowBitsLE 8 b ++ rest) := by
      rw [hr, nodeBits]
      rfl
    obtain ⟨st1, hread, hrest, hinv1⟩ := tryReadBits_split (a := 1) (by norm_num)
      (by norm_num) hinv hsplit (by simp)
    obtain ⟨st2, hbyte, hrest2, hinv2⟩ := tryReadByte_split hinv1 hrest (by simp)
    refine ⟨st2, ?_, hrest2, hinv2⟩
    have hflag : bitsToNat (lowBitsLE 1 LEAF_FLAG) = LEAF_FLAG := by decide
    have hval : bitsToNat (lowBitsLE 8 b) = b := by
      rw [bitsToNat_lowBitsLE, Nat.mod_eq_of_lt (show b < 2 ^ 8 by
        have : b < 256 := hwf
        omega)]
    simp only [readNode, readBits, TYPE_FLAG_SIZE, hread, hflag, readByte, hbyte, hval]
    simp [LEAF_FLAG]
  | Pair l r ihl ihr =>
    intro fuel hfuel st hinv rest hr
    obtain ⟨f, rfl⟩ : ∃ f, fuel = f + 1 := by
      cases fuel with
      | zero => simp [HeapNode.size] at hfuel
      | succ f => exact ⟨f, rfl⟩
    obtain ⟨hl, hr'⟩ := hwf
    have hsplit : rBits st = lowBitsLE 1 PAIR_FLAG ++ (nodeBits l ++ (nodeBits r ++ rest)) := by
      rw [hr, nodeBits]
      simp [lowBitsLE, PAIR_FLAG]
    obtain ⟨st1, hread, hrest, hinv1⟩ := tryReadBits_split (a := 1) (by norm_num)
      (by norm_num) hinv hsplit (by simp)
    have hfl : l.size ≤ f := by
      have := HeapNode.size.eq_def (HeapNode.Pair l r)
      simp [HeapNode.size] at hfuel ⊢
      omega
    have hfr : r.size ≤ f := by
      simp [HeapNode.size] at hfuel
      omega
    obtain ⟨st2, hrl, hrest2, hinv2⟩ := ihl hl f hfl st1 hinv1 _ hrest
    obtain ⟨st3, hrr, hrest3, hinv3⟩ := ihr hr' f hfr st2 hinv2 rest hrest2
    refine ⟨st3, ?_, hrest3, hinv3⟩
    have hflag : bitsToNat (lowBitsLE 1 PAIR_FLAG) = PAIR_FLAG := by decide
    simp only [readNode, readBits, TYPE_FLAG_SIZE, hread, hflag, hrl, hrr]
    simp [PAIR_FLAG, LEAF_FLAG]
  | Empty => exact absurd hwf (by simp [HeapNode.WFT])

/-- `try_read_root` returns `Ok(None)` on immediate EOF. -/
theorem tryReadRoot_none {st : RSt} (hinv : RInv st) (hlen : (rBits st).length = 0)
    (fuel : Nat) : tryReadRoot fuel st = .ok none := by
  have h := tryReadBits_fail (a := 1) (by norm_num) (by norm_num) hinv (by omega)
  simp [tryReadRoot, h]

/-- `try_read_root` on a serialized pair root parses it back. -/
theorem tryReadRoot_pair {l r : HeapNode} (hwf : (HeapNode.Pair l r).WFT) {fuel : Nat}
    (hfl : l.size ≤ fuel) (hfr : r.size ≤ fuel) {st : RSt} (hinv : RInv st)
    {rest : List Bool} (hr : rBits st = nodeBits (.Pair l r) ++ rest) :
    ∃ st', tryReadRoot fuel st = .ok (some (.Pair l r, st'))
      ∧ rBits st' = rest ∧ RInv st' := by
  obtain ⟨hl, hr'⟩ := hwf
  have hsplit : rBits st = lowBitsLE 1 PAIR_FLAG ++ (nodeBits l ++ (nodeBits r ++ rest)) := by
    rw [hr, nodeBits]
    simp [lowBitsLE, PAIR_FLAG]
  obtain ⟨st1, hread, hrest, hinv1⟩ := tryReadBits_split (a := 1) (by norm_num)
    (by norm_num) hinv hsplit (by simp)
  obtain ⟨st2, hrl, hrest2, hinv2⟩ := readNode_split hl fuel hfl st1 hinv1 _ hrest
  obtain ⟨st3, hrr, hrest3, hinv3⟩ := readNode_split hr' fuel hfr st2 hinv2 rest hrest2
  refine ⟨st3, ?_, hrest3, hinv3⟩
  have hflag : bitsToNat (lowBitsLE 1 PAIR_FLAG) = PAIR_FLAG := by decide
  simp only [tryReadRoot, hread, hflag, hrl, hrr]
  simp [PAIR_FLAG, LEAF_FLAG]

/-- `try_read_root` on a serialized bare leaf wraps it with `Empty`. -/
theorem tryReadRoot_leaf {b : Nat} (hb : b < 256) {fuel : Nat} {st : RSt}
    (hinv : RInv st) {rest : List Bool} (hr : rBits st = nodeBits (.Leaf b) ++ rest) :
    ∃ st', tryReadRoot fuel st = .ok (some (.Pair (.Leaf b) .Empty, st'))
      ∧ rBits st' = rest ∧ RInv st' := by
  have hsplit : rBits st = lowBitsLE 1 LEAF_FLAG ++ (lowBitsLE 8 b ++ rest) := by
    rw [hr, nodeBits]
    rfl
  obtain ⟨st1, hread, hrest, hinv1⟩ := tryReadBits_split (a := 1) (by norm_num)
    (by norm_num) hinv hsplit (by simp)
  obtain ⟨st2, hbyte, hrest2, hinv2⟩ := tryReadByte_split hinv1 hrest (by simp)
  refine ⟨st2, ?_, hrest2, hinv2⟩
  have hflag : bitsToNat (lowBitsLE 1 LEAF_FLAG) = LEAF_FLAG := by decide
  have hval : bitsToNat (lowBitsLE 8 b) = b := by
    rw [bitsToNat_lowBitsLE, Nat.mod_eq_of_lt (show b < 2 ^ 8 by omega)]
  simp only [tryReadRoot, hread, hflag, readByte, hbyte, hval]
  simp [LEAF_FLAG]

/-- The decoder's tree walk along the path of `b` emits `b` and consumes
exactly the path bits. -/
theorem decodeOne_spec : ∀ (t : HeapNode) (b : Nat) (p : List Bool),
    pathTo t b = some p → ∀ st : RSt, RInv st → ∀ rest : List Bool,
      rBits st = p ++ rest →
        ∃ st', decodeOne t st = .ok (b, st') ∧ rBits st' = rest ∧ RInv st' := by
  intro t
  induction t with
  | Leaf b' =>
    intro b p hp st hinv rest hr
    by_cases hbe : b' = b
    · subst hbe
      simp [pathTo] at hp
      subst hp
      exact ⟨st, by simp [decodeOne], by simpa using hr, hinv⟩
    · simp [pathTo, hbe] at hp
  | Pair l r ihl ihr =>
    intro b p hp st hinv rest hr
    cases hpl : pathTo l b with
    | some q =>
      rw [show pathTo (HeapNode.Pair l r) b = some (false :: q) by
        simp [pathTo, hpl]] at hp
      rw [Option.some.injEq] at hp
      subst hp
      have hsplit : rBits st = lowBitsLE 1 LEFT_BIT ++ (q ++ rest) := by
        rw [hr]
        rfl
      obtain ⟨st1, hread, hrest, hinv1⟩ := tryReadBits_split (a := 1) (by norm_num)
        (by norm_num) hinv hsplit (by simp)
      obtain ⟨st2, hdec, hrest2, hinv2⟩ := ihl b q hpl st1 hinv1 rest hrest
      refine ⟨st2, ?_, hrest2, hinv2⟩
      have hbit : bitsToNat (lowBitsLE 1 LEFT_BIT) = LEFT_BIT := by decide
      simp only [decodeOne, readBits, hread, hbit, hdec]
      simp [LEFT_BIT]
    | none =>
      cases hpr : pathTo r b with
      | some q =>
        rw [show pathTo (HeapNode.Pair l r) b = some (true :: q) by
          simp [pathTo, hpl, hpr]] at hp
        rw [Option.some.injEq] at hp
        subst hp
        have hsplit : rBits st = lowBitsLE 1 RIGHT_BIT ++ (q ++ rest) := by
          rw [hr]
          simp [lowBitsLE, RIGHT_BIT]
        obtain ⟨st1, hread, hrest, hinv1⟩ := tryReadBits_split (a := 1) (by norm_num)
          (by norm_num) hinv hsplit (by simp)
        obtain ⟨st2, hdec, hrest2, hinv2⟩ := ihr b q hpr st1 hinv1 rest hrest
        refine ⟨st2, ?_, hrest2, hinv2⟩
        have hbit : bitsToNat (lowBitsLE 1 RIGHT_BIT) = RIGHT_BIT := by decide
        simp only [decodeOne, readBits, hread, hbit, hdec]
        simp [RIGHT_BIT, LEFT_BIT]
      | none =>
        simp [pathTo, hpl, hpr] at hp
  | Empty =>
    intro b p hp
    simp [pathTo] at hp

/-- The outer decode loop: with the codeword stream of `data` (as root-to-leaf
paths) at the front of the unread bits, it emits exactly `data`. -/
theorem decodeLoop_spec (root : HeapNode) (P : Nat → List Bool) :
    ∀ data : List Nat, (∀ b ∈ data, pathTo root b = some (P b)) →
      ∀ (st : RSt) (acc : List Nat) (rest : List Bool), RInv st →
        rBits st = data.flatMap P ++ rest →
          ∃ st', decodeLoop root data.length st acc = .ok (acc ++ data, st')
            ∧ rBits st' = rest ∧ RInv st' := by
  intro data
  induction data with
  | nil =>
    intro _ st acc rest hinv hr
    refine ⟨st, by simp [decodeLoop], ?_, hinv⟩
    simpa using hr
  | cons b t ih =>
    intro hpaths st acc rest hinv hr
    have hsplit : rBits st = P b ++ (t.flatMap P ++ rest) := by
      rw [hr]
      simp [List.append_assoc]
    obtain ⟨st1, hdec, hrest, hinv1⟩ := decodeOne_spec root b (P b)
      (hpaths b (by simp)) st hinv _ hsplit
    obtain ⟨st2, hloop, hrest2, hinv2⟩ := ih (fun x hx => hpaths x (by simp [hx]))
      st1 (acc ++ [b]) rest hinv1 hrest
    refine ⟨st2, ?_, hrest2, hinv2⟩
    simp only [List.length_cons, decodeLoop, hdec]
    rw [hloop]
    simp

theorem get_byte_table_count (data : List Nat) :
    ∀ b : Nat, get_byte_table data b = data.count b := by
  suffices h : ∀ (l : List Nat) (t : Nat → Nat) (b : Nat),
      (l.foldl (fun t b => Function.update t b (t b + 1)) t) b = t b + l.count b by
    intro b
    have := h data (fun _ => 0) b
    simpa [get_byte_table] using this
  intro l
  induction l with
  | nil => intro t b; simp
  | cons x xs ih =>
    intro t b
    show (xs.foldl _ (Function.update t x (t x + 1))) b = _
    rw [ih, Function.update_apply, List.count_cons]
    by_cases hbx : b = x
    · subst hbx
      simp
      omega
    · have hne : ¬(x == b) = true := by simpa using Ne.symm hbx
      simp [hbx, hne]

theorem sum_map_ite_range (x : Nat) : ∀ n : Nat,
    ((List.range n).map (fun b => if b = x then (1 : Nat) else 0)).sum
      = if x < n then 1 else 0 := by
  intro n
  induction n with
  | zero => simp
  | succ n ih =>
    rw [List.range_succ]
    simp only [List.map_append, List.sum_append, ih, List.map_cons, List.map_nil,
      List.sum_cons, List.sum_nil]
    by_cases hxn : x < n
    · simp [show n ≠ x by omega, show x < n + 1 by omega, hxn]
    · by_cases hxe : n = x
      · simp [hxn, hxe, show x < n + 1 by omega]
      · simp [hxn, hxe, show ¬(x < n + 1) by omega]

theorem sum_map_zero {α : Type} (L : List α) : (L.map (fun _ => (0 : Nat))).sum = 0 := by
  induction L with
  | nil => rfl
  | cons a t ih => simpa using ih

theorem sum_map_count_range (data : List Nat) (h : ∀ b ∈ data, b < 256) :
    ((List.range 256).map (fun b => data.count b)).sum = data.length := by
  induction data with
  | nil =>
    rw [show (List.range 256).map (fun b => ([] : List Nat).count b)
        = (List.range 256).map (fun _ => (0 : Nat)) from
      List.map_congr_left (fun b _ => by simp), sum_map_zero]
    rfl
  | cons x t ih =>
    have hx : x < 256 := h x (by simp)
    have hmap : (List.range 256).map (fun b => (x :: t).count b)
        = (List.range 256).map (fun b => t.count b + (if b = x then 1 else 0)) := by
      apply List.map_congr_left
      intro b _
      rw [List.count_cons]
      by_cases hbx : b = x
      · subst hbx
        simp
      · have hne : ¬(x == b) = true := by simpa using Ne.symm hbx
        simp [hbx, hne]
    rw [hmap]
    have hadd : ∀ L : List Nat,
        (L.map (fun b => t.count b + (if b = x then 1 else 0))).sum
          = (L.map (fun b => t.count b)).sum
            + (L.map (fun b => if b = x then (1 : Nat) else 0)).sum := by
      intro L
      induction L with
      | nil => simp
      | cons y ys ihy =>
        simp only [List.map_cons, List.sum_cons, ihy]
        ring
    rw [hadd, ih (fun b hb => h b (by simp [hb])), sum_map_ite_range x 256, if_pos hx]
    simp

/-- The frequency-table total is the input length. -/
theorem tableTotal_get_byte_table (data : List Nat) (h : ∀ b ∈ data, b < 256) :
    tableTotal (get_byte_table data) = data.length := by
  unfold tableTotal BYTE_TABLE_LEN
  rw [show (List.range 256).map (get_byte_table data)
      = (List.range 256).map (fun b => data.count b) from
    List.map_congr_left (fun b _ => get_byte_table_count data b)]
  exact sum_map_count_range data h

theorem HCBInv_new : HCBInv HCB.new := by
  refine ⟨by norm_num [HCB.new], by norm_num [HCB.new], ?_, fun _ => ⟨rfl, rfl⟩⟩
  intro b hb
  simp [HCB.new] at hb

@[simp] theorem hcbBits_new : hcbBits HCB.new = [] := by
  simp [hcbBits, HCB.new]

/-- `write_bit` appends one bit (in append order) to the builder. -/
theorem hcbBits_write_bit {s : HCB} {bit : Nat} (hb : bit ≤ 1) (hinv : HCBInv s) :
    hcbBits (s.write_bit bit) = hcbBits s ++ [decide (bit = 1)]
      ∧ HCBInv (s.write_bit bit) := by
  obtain ⟨hc, hbuf, hbytes, hzero⟩ := hinv
  have hlow : ∀ c buff : Nat, buff < 2 ^ c → c < 8 →
      lowBitsLE (c + 1) (buff * 2 % 256 ||| bit)
        = decide (bit = 1) :: lowBitsLE c buff := by
    intro c buff hlt hc8
    have hmod : buff * 2 % 256 = buff * 2 := by
      apply Nat.mod_eq_of_lt
      have : buff * 2 < 2 ^ c * 2 := by omega
      have h2 : 2 ^ c * 2 ≤ 256 := by
        calc 2 ^ c * 2 = 2 ^ (c + 1) := by ring
          _ ≤ 2 ^ 8 := Nat.pow_le_pow_right (by norm_num) (by omega)
          _ = 256 := by norm_num
      omega
    have hor : buff * 2 % 256 ||| bit = 2 * buff + bit := by
      rw [hmod, Nat.lor_comm,
        show buff * 2 = 2 ^ 1 * buff by ring,
        lor_disjoint 1 buff (by omega)]
      omega
    rw [hor]
    simp only [lowBitsLE]
    have h1 : (2 * buff + bit) % 2 = bit % 2 := by omega
    have h1b : bit % 2 = bit := by omega
    have h2 : (2 * buff + bit) / 2 = buff := by omega
    rw [h1, h1b, h2]
  unfold HCB.write_bit
  by_cases h8 : s.bit_cursor = 8
  · rw [if_pos h8]
    have hbb : s.bit_buff < 256 := by
      rw [h8] at hbuf
      simpa using hbuf
    refine ⟨?_, by norm_num, ?_, ?_, by intro h; simp at h⟩
    · show (s.bytes ++ [s.bit_buff]).flatMap (fun b => (lowBitsLE 8 b).reverse)
          ++ (lowBitsLE (0 + 1) (0 * 2 % 256 ||| bit)).reverse
        = (s.bytes.flatMap (fun b => (lowBitsLE 8 b).reverse)
            ++ (lowBitsLE s.bit_cursor s.bit_buff).reverse) ++ [decide (bit = 1)]
      rw [hlow 0 0 (by norm_num) (by norm_num), h8]
      simp [List.flatMap_append, List.append_assoc, lowBitsLE]
    · show 0 * 2 % 256 ||| bit < 2 ^ (0 + 1)
      have hbit : (0 : Nat) * 2 % 256 ||| bit = bit := by simp
      rw [hbit]
      show bit < 2 ^ 1
      omega
    · intro b hbm
      simp only [List.mem_append, List.mem_singleton] at hbm
      rcases hbm with hbm | hbm
      · exact hbytes b hbm
      · rw [hbm]; exact hbb
  · rw [if_neg h8]
    have hc8 : s.bit_cursor < 8 := by omega
    refine ⟨?_, (by omega : s.bit_cursor + 1 ≤ 8), ?_, hbytes,
      by intro h; simp at h⟩
    · show s.bytes.flatMap (fun b => (lowBitsLE 8 b).reverse)
          ++ (lowBitsLE (s.bit_cursor + 1) (s.bit_buff * 2 % 256 ||| bit)).reverse
        = (s.bytes.flatMap (fun b => (lowBitsLE 8 b).reverse)
            ++ (lowBitsLE s.bit_cursor s.bit_buff).reverse) ++ [decide (bit = 1)]
      rw [hlow s.bit_cursor s.bit_buff hbuf hc8]
      simp [List.append_assoc]
    · show s.bit_buff * 2 % 256 ||| bit < 2 ^ (s.bit_cursor + 1)
      have hmod : s.bit_buff * 2 % 256 = s.bit_buff * 2 := by
        apply Nat.mod_eq_of_lt
        have h2 : 2 ^ s.bit_cursor * 2 ≤ 256 := by
          calc 2 ^ s.bit_cursor * 2 = 2 ^ (s.bit_cursor + 1) := by ring
            _ ≤ 2 ^ 8 := Nat.pow_le_pow_right (by norm_num) (by omega)
            _ = 256 := by norm_num
        omega
      have hor : s.bit_buff * 2 % 256 ||| bit = 2 * s.bit_buff + bit := by
        rw [hmod, Nat.lor_comm, show s.bit_buff * 2 = 2 ^ 1 * s.bit_buff by ring,
          lor_disjoint 1 s.bit_buff (by omega)]
        omega
      rw [hor, pow_succ]
      omega

theorem reverse_flatMap_rev (l : List Nat) :
    (l.flatMap (fun b => (lowBitsLE 8 b).reverse)).reverse = bitsOfBytes l.reverse := by
  induction l with
  | nil => simp
  | cons b t ih =>
    simp only [List.flatMap_cons, List.reverse_append, ih, List.reverse_reverse,
      List.reverse_cons]
    rw [bitsOfBytes_append]
    simp [bitsOfBytes]

/-- `finish` emits the builder's bits in reverse order (root decision first),
with a legal first-byte bit count. -/
theorem codeBits_finish {s : HCB} (hinv : HCBInv s) :
    codeBits s.finish = (hcbBits s).reverse
      ∧ (s.finish.bytes = [] ↔ s.bit_cursor = 0)
      ∧ s.finish.partial_count ≤ 8
      ∧ (∀ b ∈ s.finish.bytes, b < 256) := by
  obtain ⟨hc, hbuf, hbytes, hzero⟩ := hinv
  by_cases h0 : s.bit_cursor = 0
  · obtain ⟨hbe, hbf⟩ := hzero h0
    have hfin : s.finish = ⟨s.bytes.reverse, s.bit_cursor⟩ := by
      unfold HCB.finish
      rw [if_neg (by simpa using h0)]
    rw [hfin, hbe]
    refine ⟨?_, by simp [h0], by simp; omega, by simp⟩
    simp [codeBits, hcbBits, hbe, h0, hbf]
  · have hfin : s.finish = ⟨(s.bytes ++ [s.bit_buff]).reverse, s.bit_cursor⟩ := by
      unfold HCB.finish
      rw [if_pos (by simpa using h0)]
    rw [hfin]
    have hrev : (s.bytes ++ [s.bit_buff]).reverse = s.bit_buff :: s.bytes.reverse := by
      simp
    refine ⟨?_, by simp [hrev, h0], by simpa using hc, ?_⟩
    · rw [hrev]
      show lowBitsLE s.bit_cursor s.bit_buff ++ bitsOfBytes s.bytes.reverse
        = (s.bytes.flatMap (fun b => (lowBitsLE 8 b).reverse)
            ++ (lowBitsLE s.bit_cursor s.bit_buff).reverse).reverse
      rw [List.reverse_append, List.reverse_reverse, reverse_flatMap_rev]
    · intro b hbm
      rw [hrev] at hbm
      simp only [List.mem_cons, List.mem_reverse] at hbm
      rcases hbm with hbm | hbm
      · subst hbm
        calc s.bit_buff < 2 ^ s.bit_cursor := hbuf
          _ ≤ 2 ^ 8 := Nat.pow_le_pow_right (by norm_num) hc
          _ = 256 := by norm_num
      · exact hbytes b hbm

/-- Writing a `HuffmanCode` appends its emitted bits. -/
theorem wBits_writeCode {hc : HuffmanCode} (hcnt : hc.partial_count ≤ 8)
    (hbytes : ∀ b ∈ hc.bytes, b < 256) {st : WSt} (hw : WInv st) :
    wBits (writeCode hc st) = wBits st ++ codeBits hc ∧ WInv (writeCode hc st) := by
  match hbc : hc.bytes with
  | [] =>
    refine ⟨?_, ?_⟩
    · rw [show writeCode hc st = st by unfold writeCode; rw [hbc], codeBits, hbc]
      simp
    · rw [show writeCode hc st = st by unfold writeCode; rw [hbc]]
      exact hw
  | b0 :: rest =>
    have hb0 : b0 < 256 := hbytes b0 (by simp [hbc])
    obtain ⟨h1, h2⟩ := wBits_writeBits (v := b0) (a := hc.partial_count) hcnt
      (fun _ => hb0) hw
    obtain ⟨h3, h4⟩ := wBits_writeBytesNone
      (l := rest) (fun x hx => hbytes x (by simp [hbc, hx])) _ h2
    have hwc : writeCode hc st = writeBytesNone rest (writeBits b0 hc.partial_count st) := by
      unfold writeCode
      rw [hbc]
    refine ⟨?_, by rw [hwc]; exact h4⟩
    rw [hwc, h3, h1, codeBits, hbc, List.append_assoc]

/-- A symbol has a path iff it occurs among the leaves. -/
theorem pathTo_isSome_iff (t : HeapNode) (b : Nat) :
    (pathTo t b).isSome ↔ b ∈ t.leaves := by
  induction t with
  | Leaf b' =>
    by_cases hbe : b' = b
    · subst hbe
      simp [pathTo, HeapNode.leaves]
    · simp [pathTo, HeapNode.leaves, hbe, Ne.symm hbe]
  | Pair l r ihl ihr =>
    simp only [HeapNode.leaves, List.mem_append, pathTo]
    cases hpl : pathTo l b with
    | some q =>
      have : b ∈ l.leaves := ihl.mp (by simp [hpl])
      simp [this]
    | none =>
      have hnl : b ∉ l.leaves := fun h => by
        have := ihl.mpr h
        rw [hpl] at this
        simp at this
      cases hpr : pathTo r b with
      | some q =>
        have : b ∈ r.leaves := ihr.mp (by simp [hpr])
        simp [this, hnl]
      | none =>
        have hnr : b ∉ r.leaves := fun h => by
          have := ihr.mpr h
          rw [hpr] at this
          simp at this
        simp [hnl, hnr]
  | Empty => simp [pathTo, HeapNode.leaves]

theorem pathTo_none_of_not_mem {t : HeapNode} {b : Nat} (h : b ∉ t.leaves) :
    pathTo t b = none := by
  cases hp : pathTo t b with
  | none => rfl
  | some q =>
    exact absurd ((pathTo_isSome_iff t b).mp (by simp [hp])) h

theorem pathTo_some_of_mem {t : HeapNode} {b : Nat} (h : b ∈ t.leaves) :
    ∃ p, pathTo t b = some p := by
  have := (pathTo_isSome_iff t b).mpr h
  cases hp : pathTo t b with
  | none => rw [hp] at this; simp at this
  | some q => exact ⟨q, rfl⟩

/-- Paths are prefix-free: a path that is a prefix of another path leads to
the same leaf. -/
theorem pathTo_prefix_eq : ∀ (t : HeapNode) (b b' : Nat) (p p' s : List Bool),
    pathTo t b = some p → pathTo t b' = some p' → p ++ s = p' → b = b' ∧ p = p' := by
  intro t
  induction t with
  | Leaf c =>
    intro b b' p p' s hp hp' hpre
    by_cases hcb : c = b
    · by_cases hcb' : c = b'
      · subst hcb
        subst hcb'
        simp [pathTo] at hp hp'
        subst hp
        subst hp'
        exact ⟨rfl, rfl⟩
      · simp [pathTo, hcb'] at hp'
    · simp [pathTo, hcb] at hp
  | Pair l r ihl ihr =>
    intro b b' p p' s hp hp' hpre
    cases hpl : pathTo l b with
    | some q =>
      rw [show pathTo (HeapNode.Pair l r) b = some (false :: q) by simp [pathTo, hpl]] at hp
      rw [Option.some.injEq] at hp
      subst hp
      cases hpl' : pathTo l b' with
      | some q' =>
        rw [show pathTo (HeapNode.Pair l r) b' = some (false :: q') by
          simp [pathTo, hpl']] at hp'
        rw [Option.some.injEq] at hp'
        subst hp'
        have hq : q ++ s = q' := by
          have := hpre
          simp only [List.cons_append, List.cons.injEq] at this
          exact this.2
        obtain ⟨hb, hqq⟩ := ihl b b' q q' s hpl hpl' hq
        exact ⟨hb, by rw [hqq]⟩
      | none =>
        cases hpr' : pathTo r b' with
        | some q' =>
          rw [show pathTo (HeapNode.Pair l r) b' = some (true :: q') by
            simp [pathTo, hpl', hpr']] at hp'
          rw [Option.some.injEq] at hp'
          subst hp'
          simp at hpre
        | none =>
          rw [show pathTo (HeapNode.Pair l r) b' = none by simp [pathTo, hpl', hpr']] at hp'
          simp at hp'
    | none =>
      cases hpr : pathTo r b with
      | some q =>
        rw [show pathTo (HeapNode.Pair l r) b = some (true :: q) by
          simp [pathTo, hpl, hpr]] at hp
        rw [Option.some.injEq] at hp
        subst hp
        cases hpl' : pathTo l b' with
        | some q' =>
          rw [show pathTo (HeapNode.Pair l r) b' = some (false :: q') by
            simp [pathTo, hpl']] at hp'
          rw [Option.some.injEq] at hp'
          subst hp'
          simp at hpre
        | none =>
          cases hpr' : pathTo r b' with
          | some q' =>
            rw [show pathTo (HeapNode.Pair l r) b' = some (true :: q') by
              simp [pathTo, hpl', hpr']] at hp'
            rw [Option.some.injEq] at hp'
            subst hp'
            have hq : q ++ s = q' := by
              simp only [List.cons_append, List.cons.injEq] at hpre
              exact hpre.2
            obtain ⟨hb, hqq⟩ := ihr b b' q q' s hpr hpr' hq
            exact ⟨hb, by rw [hqq]⟩
          | none =>
            rw [show pathTo (HeapNode.Pair l r) b' = none by
              simp [pathTo, hpl', hpr']] at hp'
            simp at hp'
      | none =>
        rw [show pathTo (HeapNode.Pair l r) b = none by simp [pathTo, hpl, hpr]] at hp
        simp at hp
  | Empty =>
    intro b b' p p' s hp
    simp [pathTo] at hp

/-- `write_bit_to_node` on a tree with distinct leaves: the builders of the
tree's leaves each receive the bit once, the others are untouched. -/
theorem write_bit_to_node_apply : ∀ (t : HeapNode), t.leaves.Nodup →
    ∀ (bit : Nat) (B : Nat → HCB) (x : Nat),
      write_bit_to_node t bit B x
        = if x ∈ t.leaves then (B x).write_bit bit else B x := by
  intro t
  induction t with
  | Leaf b =>
    intro _ bit B x
    simp only [write_bit_to_node, HeapNode.leaves, List.mem_singleton,
      Function.update_apply]
    by_cases hxb : x = b
    · subst hxb
      simp
    · simp [hxb]
  | Pair l r ihl ihr =>
    intro hnd bit B x
    have hndl : l.leaves.Nodup := by
      rw [HeapNode.leaves, List.nodup_append] at hnd
      exact hnd.1
    have hndr : r.leaves.Nodup := by
      rw [HeapNode.leaves, List.nodup_append] at hnd
      exact hnd.2.1
    have hdisj : ∀ y, y ∈ l.leaves → y ∉ r.leaves := by
      rw [HeapNode.leaves, List.nodup_append] at hnd
      intro y hy hyr
      exact hnd.2.2 hy hyr
    show write_bit_to_node r bit (write_bit_to_node l bit B) x = _
    rw [ihr hndr bit _ x, ihl hndl bit B x]
    simp only [HeapNode.leaves, List.mem_append]
    by_cases hxr : x ∈ r.leaves
    · have hxl : x ∉ l.leaves := fun h => hdisj x h hxr
      simp [hxr, hxl]
    · by_cases hxl : x ∈ l.leaves
      · simp [hxr, hxl]
      · simp [hxr, hxl]
  | Empty =>
    intro _ bit B x
    simp [write_bit_to_node, HeapNode.leaves]

theorem perm_rotate3 {α : Type} (A B C : List α) : (A ++ (B ++ C)).Perm (C ++ (B ++ A)) := by
  have c1 : (A ++ (B ++ C)).Perm ((B ++ C) ++ A) := List.perm_append_comm
  have c2 : (B ++ C) ++ A = B ++ (C ++ A) := List.append_assoc _ _ _
  have c3 : (B ++ (C ++ A)).Perm ((C ++ A) ++ B) := List.perm_append_comm
  have c4 : (C ++ A) ++ B = C ++ (A ++ B) := List.append_assoc _ _ _
  have c5 : (C ++ (A ++ B)).Perm (C ++ (B ++ A)) := List.Perm.append_left C List.perm_append_comm
  exact ((c1.trans (c2 ▸ c3)).trans (c4 ▸ c5))

/-- One merge step: the invariant is preserved and the list shrinks by one. -/
theorem buildLoop_inv {S : List Nat} : ∀ (fuel : Nat) (B : Nat → HCB)
    (nodes : List (Nat × HeapNode)), NodesInv S B nodes →
      1 ≤ nodes.length → nodes.length ≤ fuel + 1 →
      ∃ B' c root, buildLoop fuel B nodes = (B', [(c, root)])
        ∧ NodesInv S B' [(c, root)] := by
  intro fuel
  induction fuel with
  | zero =>
    intro B nodes hinv h1 h2
    have : nodes.length = 1 := by omega
    obtain ⟨p, hp⟩ : ∃ p, nodes = [p] := by
      cases nodes with
      | nil => simp at this
      | cons a t =>
        cases t with
        | nil => exact ⟨a, rfl⟩
        | cons b u => simp at this
    subst hp
    exact ⟨B, p.1, p.2, by simp [buildLoop], by simpa using hinv⟩
  | succ fuel ih =>
    intro B nodes hinv h1 h2
    by_cases hlen1 : nodes.length ≤ 1
    · have : nodes.length = 1 := by omega
      obtain ⟨p, hp⟩ : ∃ p, nodes = [p] := by
        cases nodes with
        | nil => simp at this
        | cons a t =>
          cases t with
          | nil => exact ⟨a, rfl⟩
          | cons b u => simp at this
      subst hp
      exact ⟨B, p.1, p.2, by simp [buildLoop], by simpa using hinv⟩
    · have hlen2 : 2 ≤ nodes.length := by omega
      have hsortlen : (sortNodes nodes).reverse.length = nodes.length := by
        simp [sortNodes, List.length_insertionSort]
      obtain ⟨rp, lp, restRev, hrev⟩ :
          ∃ rp lp restRev, (sortNodes nodes).reverse = rp :: lp :: restRev := by
        cases hr : (sortNodes nodes).reverse with
        | nil => rw [hr] at hsortlen; simp at hsortlen; omega
        | cons a t =>
          cases t with
          | nil => rw [hr] at hsortlen; simp at hsortlen; omega
          | cons b u => exact ⟨a, b, u, rfl⟩
      obtain ⟨rc, rn⟩ := rp
      obtain ⟨lc, ln⟩ := lp
      obtain ⟨hperm, hnd, hwft, hbld, hfresh, hbinv⟩ := hinv
      have hpermlist : (((rc, rn) :: (lc, ln) :: restRev) : List (Nat × HeapNode)).Perm nodes := by
        rw [← hrev]
        exact (List.reverse_perm _).trans (List.perm_insertionSort _ nodes)
      have hmem : ∀ p, p ∈ (rc, rn) :: (lc, ln) :: restRev → p ∈ nodes :=
        fun p hp => hpermlist.mem_iff.mp hp
      have hflat3 : (((rc, rn) :: (lc, ln) :: restRev).flatMap
            (fun p => p.2.leaves)).Perm (nodes.flatMap (fun p => p.2.leaves)) :=
        List.Perm.flatMap_right _ hpermlist
      have hndl : (rn.leaves ++ (ln.leaves ++ restRev.flatMap (fun p => p.2.leaves))).Nodup := by
        have := hflat3.nodup_iff.mpr hnd
        simpa using this
      have hnd_rn : rn.leaves.Nodup := (List.nodup_append.mp hndl).1
      have hnd_rest : (ln.leaves ++ restRev.flatMap (fun p => p.2.leaves)).Nodup :=
        (List.nodup_append.mp hndl).2.1
      have hnd_ln : ln.leaves.Nodup := (List.nodup_append.mp hnd_rest).1
      have hdisj_r : ∀ x ∈ rn.leaves, x ∉ ln.leaves ++ restRev.flatMap (fun p => p.2.leaves) :=
        fun x hx => (List.nodup_append.mp hndl).2.2 hx
      have hdisj_l : ∀ x ∈ ln.leaves, x ∉ restRev.flatMap (fun p => p.2.leaves) :=
        fun x hx => (List.nodup_append.mp hnd_rest).2.2 hx
      have hrnmem : (rc, rn) ∈ nodes := hmem _ (by simp)
      have hlnmem : (lc, ln) ∈ nodes := hmem _ (by simp)
      -- the updated builders
      have hB1 : ∀ x, write_bit_to_node ln LEFT_BIT B x
          = if x ∈ ln.leaves then (B x).write_bit LEFT_BIT else B x :=
        write_bit_to_node_apply ln hnd_ln LEFT_BIT B
      have hB2 : ∀ x, write_bit_to_node rn RIGHT_BIT (write_bit_to_node ln LEFT_BIT B) x
          = if x ∈ rn.leaves then ((write_bit_to_node ln LEFT_BIT B) x).write_bit RIGHT_BIT
            else (write_bit_to_node ln LEFT_BIT B) x :=
        write_bit_to_node_apply rn hnd_rn RIGHT_BIT _
      have hB2inv : ∀ x, HCBInv (write_bit_to_node rn RIGHT_BIT
          (write_bit_to_node ln LEFT_BIT B) x) := by
        intro x
        rw [hB2 x, hB1 x]
        by_cases hxr : x ∈ rn.leaves <;> by_cases hxl : x ∈ ln.leaves <;>
          simp only [hxr, hxl, if_pos, if_neg, if_true, if_false] <;>
          first
          | exact (hcbBits_write_bit (by decide)
              ((hcbBits_write_bit (by decide) (hbinv x)).2)).2
          | exact (hcbBits_write_bit (by decide) (hbinv x)).2
          | exact hbinv x
      -- the new work list
      have hstep : buildLoop (fuel + 1) B nodes
          = buildLoop fuel
              (write_bit_to_node rn RIGHT_BIT (write_bit_to_node ln LEFT_BIT B))
              (restRev.reverse ++ [(lc + rc, .Pair ln rn)]) := by
        show (if nodes.length ≤ 1 then (B, nodes) else _) = _
        rw [if_neg hlen1, hrev]
      have hlen' : (restRev.reverse ++ [(lc + rc, HeapNode.Pair ln rn)]).length
          = nodes.length - 1 := by
        have : restRev.length + 2 = nodes.length := by
          have := hsortlen
          rw [hrev] at this
          simp at this
          omega
        simp
        omega
      -- invariant for the new state
      have hinv' : NodesInv S (write_bit_to_node rn RIGHT_BIT
          (write_bit_to_node ln LEFT_BIT B))
          (restRev.reverse ++ [(lc + rc, .Pair ln rn)]) := by
        refine ⟨?_, ?_, ?_, ?_, ?_, hB2inv⟩
        · -- permutation with S
          have h1' : (restRev.reverse ++ [(lc + rc, HeapNode.Pair ln rn)]).flatMap
                (fun p => p.2.leaves)
              = restRev.reverse.flatMap (fun p => p.2.leaves)
                ++ (ln.leaves ++ rn.leaves) := by
            rw [List.flatMap_append]
            simp [HeapNode.leaves]
          rw [h1']
          have h2' : (restRev.reverse.flatMap (fun p => p.2.leaves)).Perm
              (restRev.flatMap (fun p => p.2.leaves)) :=
            List.Perm.flatMap_right _ (List.reverse_perm _)
          have h3' : (restRev.flatMap (fun p => p.2.leaves)
              ++ (ln.leaves ++ rn.leaves)).Perm
              (rn.leaves ++ (ln.leaves ++ restRev.flatMap (fun p => p.2.leaves))) :=
            perm_rotate3 _ _ _
          have h4' : (rn.leaves ++ (ln.leaves
              ++ restRev.flatMap (fun p => p.2.leaves))).Perm S := by
            have := hflat3.trans hperm
            simpa using this
          exact ((h2'.append_right _).trans h3').trans h4'
        · -- nodup
          have h1' : ((restRev.reverse ++ [(lc + rc, HeapNode.Pair ln rn)]).flatMap
                (fun p => p.2.leaves)).Perm
              (rn.leaves ++ (ln.leaves ++ restRev.flatMap (fun p => p.2.leaves))) := by
            have h2' : (restRev.reverse.flatMap (fun p => p.2.leaves)).Perm
                (restRev.flatMap (fun p => p.2.leaves)) :=
              List.Perm.flatMap_right _ (List.reverse_perm _)
            have h3' : (restRev.flatMap (fun p => p.2.leaves)
                ++ (ln.leaves ++ rn.leaves)).Perm
                (rn.leaves ++ (ln.leaves ++ restRev.flatMap (fun p => p.2.leaves))) :=
              perm_rotate3 _ _ _
            have heq : (restRev.reverse ++ [(lc + rc, HeapNode.Pair ln rn)]).flatMap
                  (fun p => p.2.leaves)
                = restRev.reverse.flatMap (fun p => p.2.leaves)
                  ++ (ln.leaves ++ rn.leaves) := by
              rw [List.flatMap_append]
              simp [HeapNode.leaves]
            rw [heq]
            exact (h2'.append_right _).trans h3'
          exact h1'.nodup_iff.mpr hndl
        · -- well-formedness
          intro p hp
          simp only [List.mem_append, List.mem_reverse, List.mem_singleton] at hp
          rcases hp with hp | hp
          · exact hwft p (hmem p (by simp [hp]))
          · rw [hp]
            exact ⟨hwft _ hlnmem, hwft _ hrnmem⟩
        · -- builder contents
          intro p hp x hx
          simp only [List.mem_append, List.mem_reverse, List.mem_singleton] at hp
          rcases hp with hp | hp
          · -- untouched node: its symbols are outside both merged subtrees
            have hxrest : x ∈ restRev.flatMap (fun q => q.2.leaves) :=
              List.mem_flatMap.mpr ⟨p, hp, hx⟩
            have hxnl : x ∉ ln.leaves := fun h => hdisj_l x h hxrest
            have hxnr : x ∉ rn.leaves := fun h =>
              hdisj_r x h (by simp [hxrest])
            obtain ⟨q, hq1, hq2⟩ := hbld p (hmem p (by simp [hp])) x hx
            refine ⟨q, hq1, ?_⟩
            rw [hB2 x, if_neg hxnr, hB1 x, if_neg hxnl]
            exact hq2
          · -- the merged pair
            rw [hp] at hx ⊢
            simp only [HeapNode.leaves, List.mem_append] at hx
            rcases hx with hx | hx
            · -- left subtree: one LEFT_BIT appended
              have hxnr : x ∉ rn.leaves := fun h => hdisj_r x h (by simp [hx])
              obtain ⟨q, hq1, hq2⟩ := hbld _ hlnmem x hx
              refine ⟨false :: q, ?_, ?_⟩
              · show pathTo (HeapNode.Pair ln rn) x = some (false :: q)
                simp [pathTo, hq1]
              · rw [hB2 x, if_neg hxnr, hB1 x, if_pos hx]
                rw [(hcbBits_write_bit (by decide) (hbinv x)).1, hq2]
                rw [show decide (LEFT_BIT = 1) = false from rfl, List.reverse_cons]
            · -- right subtree: one RIGHT_BIT appended
              have hxnl : x ∉ ln.leaves := fun h => hdisj_r x hx (by simp [h])
              obtain ⟨q, hq1, hq2⟩ := hbld _ hrnmem x hx
              refine ⟨true :: q, ?_, ?_⟩
              · show pathTo (HeapNode.Pair ln rn) x = some (true :: q)
                simp [pathTo, hq1, pathTo_none_of_not_mem hxnl]
              · rw [hB2 x, if_pos hx, hB1 x, if_neg hxnl]
                rw [(hcbBits_write_bit (by decide) (hbinv x)).1, hq2]
                rw [show decide (RIGHT_BIT = 1) = true from rfl, List.reverse_cons]
        · -- fresh builders
          intro x hxs
          have hxflat : x ∉ nodes.flatMap (fun p => p.2.leaves) := fun h =>
            hxs (hperm.mem_iff.mp h)
          have hxnl : x ∉ ln.leaves := fun h =>
            hxflat (List.mem_flatMap.mpr ⟨(lc, ln), hlnmem, h⟩)
          have hxnr : x ∉ rn.leaves := fun h =>
            hxflat (List.mem_flatMap.mpr ⟨(rc, rn), hrnmem, h⟩)
          rw [hB2 x, if_neg hxnr, hB1 x, if_neg hxnl]
          exact hfresh x hxs
      rw [hstep]
      exact ih _ _ hinv' (by omega) (by omega)

theorem initialNodes_mem {T : Nat → Nat} {p : Nat × HeapNode}
    (hp : p ∈ initialNodes T) : ∃ b, b < 256 ∧ T b ≠ 0 ∧ p = (T b, .Leaf b) := by
  unfold initialNodes BYTE_TABLE_LEN at hp
  rw [List.mem_filterMap] at hp
  obtain ⟨b, hb, hpb⟩ := hp
  by_cases hT : T b ≠ 0
  · rw [if_pos hT, Option.some.injEq] at hpb
    exact ⟨b, by simpa using hb, hT, hpb.symm⟩
  · rw [if_neg hT] at hpb
    simp at hpb

theorem initialNodes_flat (T : Nat → Nat) :
    (initialNodes T).flatMap (fun p => p.2.leaves)
      = (List.range BYTE_TABLE_LEN).filter (fun b => decide (T b ≠ 0)) := by
  unfold initialNodes
  generalize List.range BYTE_TABLE_LEN = L
  induction L with
  | nil => simp
  | cons b t ih =>
    by_cases hT : T b ≠ 0
    · simp only [List.filterMap_cons, if_pos hT, List.flatMap_cons, ih,
        List.filter_cons]
      rw [if_pos (by simpa using hT)]
      simp [HeapNode.leaves]
    · simp only [List.filterMap_cons, if_neg hT, ih, List.filter_cons]
      rw [if_neg (by simpa using hT)]

theorem initialNodes_flat_mem (T : Nat → Nat) (x : Nat) :
    x ∈ (initialNodes T).flatMap (fun p => p.2.leaves) ↔ x < 256 ∧ T x ≠ 0 := by
  rw [initialNodes_flat]
  unfold BYTE_TABLE_LEN
  rw [List.mem_filter]
  simp [List.mem_range]

theorem initialNodes_flat_nodup (T : Nat → Nat) :
    ((initialNodes T).flatMap (fun p => p.2.leaves)).Nodup := by
  rw [initialNodes_flat]
  exact (List.nodup_range _).filter _

theorem initialNodes_nonempty {T : Nat → Nat} (hne : ∃ b, b < 256 ∧ T b ≠ 0) :
    ¬(initialNodes T).isEmpty = true := by
  obtain ⟨b, hb, hT⟩ := hne
  have hmem : b ∈ (initialNodes T).flatMap (fun p => p.2.leaves) :=
    (initialNodes_flat_mem T b).mpr ⟨hb, hT⟩
  rw [List.mem_flatMap] at hmem
  obtain ⟨p, hp, _⟩ := hmem
  intro hemp
  rw [List.isEmpty_iff] at hemp
  rw [hemp] at hp
  simp at hp

theorem leaves_ne_nil {t : HeapNode} (hwf : t.WFT) : t.leaves ≠ [] := by
  induction t with
  | Leaf b => simp [HeapNode.leaves]
  | Pair l r ihl ihr =>
    obtain ⟨hl, _⟩ := hwf
    have := ihl hl
    simp only [HeapNode.leaves, ne_eq, List.append_eq_nil]
    intro ⟨h1, _⟩
    exact this h1
  | Empty => exact absurd hwf (by simp [HeapNode.WFT])

theorem postRootBit_leaf (s : Nat) (B : Nat → HCB) :
    postRootBit (.Leaf s) B = write_bit_to_node (.Leaf s) LEFT_BIT B := rfl

theorem postRootBit_pair (l r : HeapNode) (B : Nat → HCB) :
    postRootBit (.Pair l r) B = B := rfl

theorem hcbBits_length (s : HCB) :
    (hcbBits s).length = 8 * s.bytes.length + s.bit_cursor := by
  unfold hcbBits
  rw [List.length_append]
  congr 1
  · induction s.bytes with
    | nil => simp
    | cons b t ih =>
      simp only [List.flatMap_cons, List.length_append, ih, List.length_reverse,
        lowBitsLE_length, List.length_cons]
      ring
  · simp

theorem pathTo_pair_ne_nil {l r : HeapNode} {x : Nat} {q : List Bool}
    (h : pathTo (.Pair l r) x = some q) : q ≠ [] := by
  unfold pathTo at h
  cases hpl : pathTo l x with
  | some p =>
    rw [hpl] at h
    simp only [Option.some.injEq] at h
    subst h
    simp
  | none =>
    rw [hpl] at h
    cases hpr : pathTo r x with
    | some p =>
      rw [hpr] at h
      simp only [Option.some.injEq] at h
      subst h
      simp
    | none =>
      rw [hpr] at h
      simp at h

theorem hcb_eq_new_of_bits_nil {s : HCB} (hinv : HCBInv s) (h : hcbBits s = []) :
    s = HCB.new := by
  obtain ⟨hc, hbuf, hbytes, hzero⟩ := hinv
  have hlen := hcbBits_length s
  rw [h] at hlen
  simp only [List.length_nil] at hlen
  have h2 : s.bit_cursor = 0 := by omega
  have h1 : s.bytes.length = 0 := by omega
  have hb : s.bytes = [] := List.length_eq_zero.mp h1
  obtain ⟨_, hbf⟩ := hzero h2
  obtain ⟨c, by_, bf⟩ := s
  simp only at hb h2 hbf
  rw [HCB.new, h2, hb, hbf]

/-- Full specification of `get_huffman_tree_and_codes` on a non-trivial
table: a well-formed tree whose leaves are exactly the non-zero symbols,
each assigned a code that spells the root-to-leaf path in the (read-side
wrapped) tree; absent symbols have no code, and a bare-leaf root gets the
literal one-bit code `HuffmanCode [0] 1`. -/
theorem get_huffman_spec (T : Nat → Nat) (hne : ∃ b, b < 256 ∧ T b ≠ 0) :
    ∃ root codes, get_huffman_tree_and_codes T = some (root, codes)
      ∧ root.WFT ∧ root.leaves.Nodup
      ∧ (∀ x, x ∈ root.leaves ↔ x < 256 ∧ T x ≠ 0)
      ∧ (∀ x ∈ root.leaves, ∃ p hc, pathTo (wrapRoot root) x = some p
          ∧ codes x = some hc ∧ codeBits hc = p
          ∧ hc.partial_count ≤ 8 ∧ (∀ b ∈ hc.bytes, b < 256))
      ∧ (∀ x, x ∉ root.leaves → codes x = none)
      ∧ (∀ s, root = .Leaf s → codes s = some ⟨[0], 1⟩) := by
  have hinv0 : NodesInv ((initialNodes T).flatMap (fun p => p.2.leaves))
      (fun _ => HCB.new) (initialNodes T) := by
    refine ⟨List.Perm.refl _, initialNodes_flat_nodup T, ?_, ?_, fun _ _ => rfl,
      fun _ => HCBInv_new⟩
    · intro p hp
      obtain ⟨b, hb, _, hpe⟩ := initialNodes_mem hp
      rw [hpe]
      exact hb
    · intro p hp x hx
      obtain ⟨b, hb, _, hpe⟩ := initialNodes_mem hp
      rw [hpe] at hx ⊢
      simp only [HeapNode.leaves, List.mem_singleton] at hx
      subst hx
      exact ⟨[], by simp [pathTo], by simp⟩
  have hlen1 : 1 ≤ (initialNodes T).length := by
    have := initialNodes_nonempty hne
    cases hn : initialNodes T with
    | nil => rw [hn] at this; simp at this
    | cons a t => simp
  obtain ⟨B', c, root, hloop, hperm', hnd', hwft', hbld', hfresh', hbinv'⟩ :=
    buildLoop_inv (initialNodes T).length (fun _ => HCB.new) (initialNodes T)
      hinv0 hlen1 (by omega)
  have hflatroot : ([(c, root)].flatMap (fun p => p.2.leaves)) = root.leaves := by
    simp
  rw [hflatroot] at hperm' hnd'
  have hmemroot : ∀ x, x ∈ root.leaves ↔ x < 256 ∧ T x ≠ 0 := by
    intro x
    rw [hperm'.mem_iff]
    exact initialNodes_flat_mem T x
  have hwftroot : root.WFT := hwft' (c, root) (by simp)
  have hresult : get_huffman_tree_and_codes T
      = some (root, finishTable (postRootBit root B')) := by
    unfold get_huffman_tree_and_codes
    rw [if_neg (initialNodes_nonempty hne), hloop]
    simp
  have hrootbits : ∀ x ∈ root.leaves, ∃ q, pathTo root x = some q
      ∧ hcbBits (B' x) = q.reverse := fun x hx => hbld' (c, root) (by simp) x hx
  refine ⟨root, finishTable (postRootBit root B'), hresult, hwftroot, hnd',
    hmemroot, ?_, ?_, ?_⟩
  · -- codes of present symbols
    intro x hx
    match hroot : root with
    | .Empty => exact absurd hwftroot (by simp [HeapNode.WFT])
    | .Pair l r =>
      obtain ⟨q, hq1, hq2⟩ := hrootbits x hx
      have hqne : q ≠ [] := pathTo_pair_ne_nil hq1
      have hcur : (B' x).bit_cursor ≠ 0 := by
        intro h0
        obtain ⟨hc8, hbuf, hbytes, hzero⟩ := hbinv' x
        obtain ⟨hbe, _⟩ := hzero h0
        have := hcbBits_length (B' x)
        rw [hq2, hbe, h0] at this
        simp at this
        exact hqne (by
          have hq' := congrArg List.reverse this.symm
          simpa using hq')
      obtain ⟨hcb, hiff, hcnt, hbts⟩ := codeBits_finish (hbinv' x)
      refine ⟨q, (B' x).finish, ?_, ?_, ?_, hcnt, hbts⟩
      · show pathTo (wrapRoot (HeapNode.Pair l r)) x = some q
        exact hq1
      · show finishTable (postRootBit (HeapNode.Pair l r) B') x = some (B' x).finish
        rw [postRootBit_pair]
        unfold finishTable
        rw [if_neg (fun h => hcur (hiff.mp h))]
      · rw [hcb, hq2]
        simp
    | .Leaf s =>
      simp only [HeapNode.leaves, List.mem_singleton] at hx
      subst hx
      obtain ⟨q, hq1, hq2⟩ := hrootbits x (by simp [HeapNode.leaves])
      have hqnil : q = [] := by
        simp [pathTo] at hq1
        exact hq1
      subst hqnil
      have hBx : B' x = HCB.new := hcb_eq_new_of_bits_nil (hbinv' x) (by simpa using hq2)
      have hupd : postRootBit (HeapNode.Leaf x) B' x = (B' x).write_bit LEFT_BIT := by
        rw [postRootBit_leaf]
        rw [write_bit_to_node_apply _ (by simp [HeapNode.leaves]) _ _ x]
        rw [if_pos (by simp [HeapNode.leaves])]
      refine ⟨[false], ⟨[0], 1⟩, ?_, ?_, by simp [codeBits, lowBitsLE, bitsOfBytes], by norm_num, ?_⟩
      · show pathTo (wrapRoot (HeapNode.Leaf x)) x = some [false]
        simp [wrapRoot, pathTo]
      · show finishTable (postRootBit (HeapNode.Leaf x) B') x = some ⟨[0], 1⟩
        unfold finishTable
        rw [hupd, hBx]
        simp [HCB.write_bit, HCB.new, HCB.finish, LEFT_BIT]
      · intro b hb
        simp only [List.mem_singleton] at hb
        subst hb
        norm_num
  · -- absent symbols have no code
    intro x hx
    have hxs : x ∉ (initialNodes T).flatMap (fun p => p.2.leaves) := fun h =>
      hx (hperm'.mem_iff.mpr h)
    have hBx : B' x = HCB.new := hfresh' x hxs
    have hpost : postRootBit root B' x = HCB.new := by
      match hroot : root with
      | .Leaf s =>
        rw [postRootBit_leaf,
          write_bit_to_node_apply _ (by simp [HeapNode.leaves]) _ _ x,
          if_neg hx]
        exact hBx
      | .Pair l r => rw [postRootBit_pair]; exact hBx
      | .Empty => exact absurd hwftroot (by simp [HeapNode.WFT])
    unfold finishTable
    rw [hpost]
    simp [HCB.finish, HCB.new]
  · -- the bare-leaf root's literal code
    intro s hroot
    subst hroot
    obtain ⟨q, hq1, hq2⟩ := hrootbits s (by simp [HeapNode.leaves])
    have hqnil : q = [] := by
      simp [pathTo] at hq1
      exact hq1
    subst hqnil
    have hBx : B' s = HCB.new := hcb_eq_new_of_bits_nil (hbinv' s) (by simpa using hq2)
    have hupd : postRootBit (HeapNode.Leaf s) B' s = (B' s).write_bit LEFT_BIT := by
      rw [postRootBit_leaf]
      rw [write_bit_to_node_apply _ (by simp [HeapNode.leaves]) _ _ s]
      rw [if_pos (by simp [HeapNode.leaves])]
    unfold finishTable
    rw [hupd, hBx]
    simp [HCB.write_bit, HCB.new, HCB.finish, LEFT_BIT]

/-- The encode loop writes the concatenated codeword streams. -/
theorem packData_spec {codes : Nat → Option HuffmanCode} {P : Nat → List Bool} :
    ∀ data : List Nat,
      (∀ b ∈ data, ∃ hc, codes b = some hc ∧ codeBits hc = P b
        ∧ hc.partial_count ≤ 8 ∧ (∀ x ∈ hc.bytes, x < 256)) →
      ∀ st : WSt, WInv st →
        ∃ st', packData codes data st = .ok st'
          ∧ wBits st' = wBits st ++ data.flatMap P ∧ WInv st' := by
  intro data
  induction data with
  | nil =>
    intro _ st hw
    exact ⟨st, by simp [packData], by simp, hw⟩
  | cons b t ih =>
    intro hcodes st hw
    obtain ⟨hc, hcb, hcbits, hcnt, hbts⟩ := hcodes b (by simp)
    obtain ⟨h1, h2⟩ := wBits_writeCode hcnt hbts hw
    obtain ⟨st', h3, h4, h5⟩ := ih (fun x hx => hcodes x (by simp [hx])) _ h2
    refine ⟨st', ?_, ?_, h5⟩
    · simp only [packData, hcb, h3]
    · rw [h4, h1, hcbits]
      simp [List.append_assoc]

/-- `try_read_root` after a serialized well-formed root yields the (read-side
wrapped) root. -/
theorem tryReadRoot_wrap {root : HeapNode} (hwf : root.WFT) {fuel : Nat}
    (hfuel : root.size ≤ fuel) {st : RSt} (hinv : RInv st) {rest : List Bool}
    (hr : rBits st = nodeBits root ++ rest) :
    ∃ st', tryReadRoot fuel st = .ok (some (wrapRoot root, st'))
      ∧ rBits st' = rest ∧ RInv st' := by
  match root with
  | .Leaf b => exact tryReadRoot_leaf hwf hinv hr
  | .Pair l r =>
    have hsz : l.size ≤ fuel ∧ r.size ≤ fuel := by
      rw [HeapNode.size] at hfuel
      exact ⟨by omega, by omega⟩
    exact tryReadRoot_pair hwf hsz.1 hsz.2 hinv hr
  | .Empty => exact absurd hwf (by simp [HeapNode.WFT])

theorem count_ne_zero_of_mem {data : List Nat} {b : Nat} (h : b ∈ data) :
    data.count b ≠ 0 := by
  have := List.count_pos_iff_mem.mpr h
  omega

@[simp] theorem wBits_init : wBits WSt.init = [] := rfl

/-- C1: round-trip of the whole codec — for every byte sequence `D` (bytes
below 256, length a `u64`), unpacking the output of packing `D` reproduces
`D` exactly, and the count returned by `unpack_file` equals `D.length`. -/
theorem C1_pack_unpack_roundtrip (data : List Nat) (hdata : ∀ b ∈ data, b < 256)
    (hlen : data.length < 2 ^ 64) :
    ∃ out : List Nat, pack_file data = .ok (out, out.length)
      ∧ unpack_file out = .ok (data, data.length) := by
  by_cases hnil : data = []
  · subst hnil
    exact ⟨[], by decide, by decide⟩
  · obtain ⟨b0, hb0mem⟩ : ∃ b0, b0 ∈ data := by
      cases data with
      | nil => exact absurd rfl hnil
      | cons a t => exact ⟨a, by simp⟩
    have hTne : ∃ b, b < 256 ∧ get_byte_table data b ≠ 0 :=
      ⟨b0, hdata b0 hb0mem, by
        rw [get_byte_table_count]
        exact count_ne_zero_of_mem hb0mem⟩
    obtain ⟨root, codes, hget, hwft, hndp, hmemleaves, hcodes, hnone, hleafcode⟩ :=
      get_huffman_spec (get_byte_table data) hTne
    have htot : tableTotal (get_byte_table data) = data.length :=
      tableTotal_get_byte_table data hdata
    have hPspec : ∀ b ∈ data,
        pathTo (wrapRoot root) b = some ((pathTo (wrapRoot root) b).getD [])
        ∧ ∃ hc, codes b = some hc
            ∧ codeBits hc = (pathTo (wrapRoot root) b).getD []
            ∧ hc.partial_count ≤ 8 ∧ (∀ x ∈ hc.bytes, x < 256) := by
      intro b hb
      have hbl : b ∈ root.leaves := (hmemleaves b).mpr
        ⟨hdata b hb, by
          rw [get_byte_table_count]
          exact count_ne_zero_of_mem hb⟩
      obtain ⟨p, hc, hp1, hc1, hc2, hc3, hc4⟩ := hcodes b hbl
      have hPb : (pathTo (wrapRoot root) b).getD [] = p := by simp [hp1]
      exact ⟨by rw [hPb]; exact hp1, hc, hc1, by rw [hc2, hPb], hc3, hc4⟩
    obtain ⟨st1, hwn, hwb1, hwi1⟩ := writeNode_spec hwft WSt.init WInv_init
    obtain ⟨hwb2, hwi2⟩ := wBits_compactWrite (v := tableTotal (get_byte_table data))
      (by rw [htot]; exact hlen) hwi1
    obtain ⟨st3, hpd, hwb3, hwi3⟩ := packData_spec data
      (fun b hb => (hPspec b hb).2) _ hwi2
    obtain ⟨hfb, hfc, hff, hfi⟩ := flush_spec hwi3
    have hpack : pack_file data = .ok ((flush st3).out, (flush st3).out.length) := by
      simp only [pack_file, hget, hwn, hpd]
    have hbitseq : bitsOfBytes (flush st3).out
        = nodeBits root
          ++ (bitsOfBytes (required_number_of_bytes (tableTotal (get_byte_table data))
              :: leBytes (tableTotal (get_byte_table data))
                (required_number_of_bytes (tableTotal (get_byte_table data))))
            ++ ((data.flatMap fun b => (pathTo (wrapRoot root) b).getD [])
              ++ List.replicate ((8 - st3.bit_cursor) % 8) false)) := by
      rw [hfb, hwb3, hwb2, hwb1, wBits_init]
      simp [List.append_assoc]
    have houtlt : ∀ b ∈ (flush st3).out, b < 256 := hfi.2.2
    have hrinv0 : RInv (RSt.init (flush st3).out) := RInv_init _ houtlt
    have hsizebound : root.size ≤ 8 * (flush st3).out.length + 9 := by
      have h1 := size_le_nodeBits_length root hwft
      have h2 : (nodeBits root).length ≤ (bitsOfBytes (flush st3).out).length := by
        rw [hbitseq]
        simp
      rw [bitsOfBytes_length] at h2
      omega
    obtain ⟨st1', hroot', hrb1, hinv1⟩ := tryReadRoot_wrap hwft hsizebound hrinv0
      (by rw [rBits_init, hbitseq])
    rw [htot] at hrb1
    obtain ⟨st2', hcr, hrb2, hinv2⟩ := compactRead_split (v := data.length) hlen hinv1 hrb1
    obtain ⟨st3', hdl, hrb3, hinv3⟩ := decodeLoop_spec (wrapRoot root)
      (fun b => (pathTo (wrapRoot root) b).getD []) data
      (fun b hb => (hPspec b hb).1) st2' [] _ hinv2 hrb2
    have hunpack : unpack_file (flush st3).out = .ok (data, data.length) := by
      simp only [unpack_file, hroot', hcr, hdl, List.nil_append]
    exact ⟨(flush st3).out, hpack, hunpack⟩

theorem C1_witness : ∃ out : List Nat, pack_file [0, 1] = .ok (out, out.length)
    ∧ unpack_file out = .ok ([0, 1], [0, 1].length) :=
  C1_pack_unpack_roundtrip [0, 1] (by decide) (by decide)

/-- `read_byte` success consumes 8 bits, preserves the invariant, and returns
a byte value. -/
theorem tryReadByte_length {st : RSt} (hinv : RInv st) {v : Nat} {st' : RSt}
    (h : tryReadByte st = some (v, st')) :
    (rBits st').length + 8 = (rBits st).length ∧ RInv st' ∧ v < 256 := by
  have h8 : tryReadBits 8 st = some (v, st') := h
  have hl := tryReadBits_length (by omega) (by omega) hinv h8
  refine ⟨hl.1, hl.2.1, ?_⟩
  have := hl.2.2
  norm_num at this
  exact this

/-- `HeapNode::read` with fuel above the number of unread bits never exhausts
the fuel and never hits the unreachable tag arm: the only error is EOF, and a
successful parse strictly consumes bits and preserves the invariant. -/
theorem readNode_noPanic {fuel : Nat} : ∀ {st : RSt}, RInv st → (rBits st).length < fuel →
    (∀ e, readNode fuel st = .error e → e = Err.eof)
    ∧ ∀ p, readNode fuel st = .ok p → RInv p.2 ∧ (rBits p.2).length < (rBits st).length := by
  induction fuel with
  | zero =>
    intro st _ hlen
    exact absurd hlen (by omega)
  | succ fuel ih =>
    intro st hinv hlen
    rcases h1 : tryReadBits 1 st with _ | ⟨flag, st1⟩
    · have hred : readNode (fuel + 1) st = .error .eof := by
        simp [readNode, readBits, TYPE_FLAG_SIZE, h1]
      rw [hred]
      exact ⟨fun e he => by injection he with h; exact h.symm,
        fun p hp => by simp at hp⟩
    · obtain ⟨hlen1, hinv1, hflag⟩ := tryReadBits_length le_rfl (by omega) hinv h1
      rcases (show flag = 0 ∨ flag = 1 by omega) with rfl | rfl
      · rcases h2 : tryReadByte st1 with _ | ⟨b, st2⟩
        · have hred : readNode (fuel + 1) st = .error .eof := by
            simp [readNode, readBits, readByte, TYPE_FLAG_SIZE, LEAF_FLAG, h1, h2]
          rw [hred]
          exact ⟨fun e he => by injection he with h; exact h.symm,
            fun p hp => by simp at hp⟩
        · obtain ⟨hlen2, hinv2, hb⟩ := tryReadByte_length hinv1 h2
          have hred : readNode (fuel + 1) st = .ok (.Leaf b, st2) := by
            simp [readNode, readBits, readByte, TYPE_FLAG_SIZE, LEAF_FLAG, h1, h2]
          rw [hred]
          refine ⟨fun e he => by simp at he, fun p hp => ?_⟩
          injection hp with h
          subst h
          refine ⟨hinv2, ?_⟩
          show (rBits st2).length < (rBits st).length
          omega
      · have hst1 : (rBits st1).length < fuel := by omega
        rcases h2 : readNode fuel st1 with e2 | ⟨left, st2⟩
        · obtain rfl := (ih hinv1 hst1).1 e2 h2
          have hred : readNode (fuel + 1) st = .error .eof := by
            simp [readNode, readBits, TYPE_FLAG_SIZE, LEAF_FLAG, PAIR_FLAG, h1, h2]
          rw [hred]
          exact ⟨fun e he => by injection he with h; exact h.symm,
            fun p hp => by simp at hp⟩
        · obtain ⟨hinv2, hlen2⟩ := (ih hinv1 hst1).2 (left, st2) h2
          have hlen2' : (rBits st2).length < (rBits st1).length := hlen2
          have hst2 : (rBits st2).length < fuel := by omega
          rcases h3 : readNode fuel st2 with e3 | ⟨right, st3⟩
          · obtain rfl := (ih hinv2 hst2).1 e3 h3
            have hred : readNode (fuel + 1) st = .error .eof := by
              simp [readNode, readBits, TYPE_FLAG_SIZE, LEAF_FLAG, PAIR_FLAG, h1, h2, h3]
            rw [hred]
            exact ⟨fun e he => by injection he with h; exact h.symm,
              fun p hp => by simp at hp⟩
          · obtain ⟨hinv3, hlen3⟩ := (ih hinv2 hst2).2 (right, st3) h3
            have hlen3' : (rBits st3).length < (rBits st2).length := hlen3
            have hred : readNode (fuel + 1) st = .ok (.Pair left right, st3) := by
              simp [readNode, readBits, TYPE_FLAG_SIZE, LEAF_FLAG, PAIR_FLAG, h1, h2, h3]
            rw [hred]
            refine ⟨fun e he => by simp at he, fun p hp => ?_⟩
            injection hp with h
            subst h
            refine ⟨hinv3, ?_⟩
            show (rBits st3).length < (rBits st).length
            omega

/-- One decode step: the bit read on a `Pair` is always `0` or `1`, so the
`unreachable!()` arm is dead; errors are EOF or the `Empty`-node
`InvalidData`. -/
theorem decodeOne_noPanic (root : HeapNode) : ∀ {st : RSt}, RInv st →
    (∀ e, decodeOne root st = .error e → e = Err.eof ∨ e = Err.invalidData)
    ∧ ∀ p, decodeOne root st = .ok p → RInv p.2 := by
  induction root with
  | Leaf b =>
    intro st hinv
    refine ⟨fun e he => by simp [decodeOne] at he, fun p hp => ?_⟩
    injection hp with h
    subst h
    exact hinv
  | Pair l r ihl ihr =>
    intro st hinv
    rcases h1 : tryReadBits 1 st with _ | ⟨v, st1⟩
    · have hred : decodeOne (.Pair l r) st = .error .eof := by
        simp [decodeOne, readBits, h1]
      rw [hred]
      exact ⟨fun e he => by injection he with h; exact Or.inl h.symm,
        fun p hp => by simp at hp⟩
    · obtain ⟨hlen1, hinv1, hv⟩ := tryReadBits_length le_rfl (by omega) hinv h1
      rcases (show v = 0 ∨ v = 1 by omega) with rfl | rfl
      · have hred : decodeOne (.Pair l r) st = decodeOne l st1 := by
          simp [decodeOne, readBits, h1, LEFT_BIT]
        rw [hred]
        exact ihl hinv1
      · have hred : decodeOne (.Pair l r) st = decodeOne r st1 := by
          simp [decodeOne, readBits, h1, LEFT_BIT, RIGHT_BIT]
        rw [hred]
        exact ihr hinv1
  | Empty =>
    intro st hinv
    refine ⟨fun e he => ?_, fun p hp => by simp [decodeOne] at hp⟩
    injection he with h
    exact Or.inr h.symm

/-- The decode loop never panics: its only errors are EOF and `InvalidData`,
inherited from the per-byte step. -/
theorem decodeLoop_noPanic (root : HeapNode) : ∀ (n : Nat) (st : RSt) (acc : List Nat),
    RInv st → ∀ e, decodeLoop root n st acc = .error e → e = Err.eof ∨ e = Err.invalidData := by
  intro n
  induction n with
  | zero =>
    intro st acc _ e he
    simp [decodeLoop] at he
  | succ n ihn =>
    intro st acc hinv e he
    rcases h1 : decodeOne root st with e1 | ⟨b, st1⟩
    · have h := (decodeOne_noPanic root hinv).1 e1 h1
      have hred : decodeLoop root (n + 1) st acc = .error e1 := by
        simp [decodeLoop, h1]
      rw [hred] at he
      injection he with h2
      exact h2 ▸ h
    · have hred : decodeLoop root (n + 1) st acc = decodeLoop root n st1 (acc ++ [b]) := by
        simp [decodeLoop, h1]
      rw [hred] at he
      exact ihn st1 (acc ++ [b]) ((decodeOne_noPanic root hinv).2 (b, st1) h1) e he

/-- `read_bytes` never panics: EOF is its only error, and success preserves
the invariant. -/
theorem readBytesNone_noPanic : ∀ (n : Nat) {st : RSt}, RInv st →
    (∀ e, readBytesNone n st = .error e → e = Err.eof)
    ∧ ∀ p, readBytesNone n st = .ok p → RInv p.2 := by
  intro n
  induction n with
  | zero =>
    intro st hinv
    refine ⟨fun e he => by simp [readBytesNone] at he, fun p hp => ?_⟩
    injection hp with h
    subst h
    exact hinv
  | succ n ihn =>
    intro st hinv
    rcases h1 : tryReadByte st with _ | ⟨b, st1⟩
    · have hred : readBytesNone (n + 1) st = .error .eof := by
        simp [readBytesNone, readByte, h1]
      rw [hred]
      exact ⟨fun e he => by injection he with h; exact h.symm,
        fun p hp => by simp at hp⟩
    · obtain ⟨hlen1, hinv1, hb⟩ := tryReadByte_length hinv h1
      rcases h2 : readBytesNone n st1 with e2 | ⟨bs, st2⟩
      · obtain rfl := (ihn hinv1).1 e2 h2
        have hred : readBytesNone (n + 1) st = .error .eof := by
          simp [readBytesNone, readByte, h1, h2]
        rw [hred]
        exact ⟨fun e he => by injection he with h; exact h.symm,
          fun p hp => by simp at hp⟩
      · have hred : readBytesNone (n + 1) st = .ok (b :: bs, st2) := by
          simp [readBytesNone, readByte, h1, h2]
        rw [hred]
        refine ⟨fun e he => by simp at he, fun p hp => ?_⟩
        injection hp with h
        subst h
        exact (ihn hinv1).2 (bs, st2) h2

/-- `CompactNumberU64::read` never panics: EOF or the `count > 8`
`InvalidData` are its only errors; success preserves the invariant. -/
theorem compactRead_noPanic {st : RSt} (hinv : RInv st) :
    (∀ e, compactRead st = .error e → e = Err.eof ∨ e = Err.invalidData)
    ∧ ∀ p, compactRead st = .ok p → RInv p.2 := by
  rcases h1 : tryReadByte st with _ | ⟨k, st1⟩
  · have hred : compactRead st = .error .eof := by
      simp [compactRead, readByte, h1]
    rw [hred]
    exact ⟨fun e he => by injection he with h; exact Or.inl h.symm,
      fun p hp => by simp at hp⟩
  · obtain ⟨hlen1, hinv1, hk⟩ := tryReadByte_length hinv h1
    by_cases h8 : 8 < k
    · have hred : compactRead st = .error .invalidData := by
        simp [compactRead, readByte, h1, h8]
      rw [hred]
      exact ⟨fun e he => by injection he with h; exact Or.inr h.symm,
        fun p hp => by simp at hp⟩
    · rcases h2 : readBytesNone k st1 with e2 | ⟨bs, st2⟩
      · obtain rfl := (readBytesNone_noPanic k hinv1).1 e2 h2
        have hred : compactRead st = .error .eof := by
          simp [compactRead, readByte, h1, h8, h2]
        rw [hred]
        exact ⟨fun e he => by injection he with h; exact Or.inl h.symm,
          fun p hp => by simp at hp⟩
      · have hred : compactRead st = .ok (leToNat bs, st2) := by
          simp [compactRead, readByte, h1, h8, h2]
        rw [hred]
        refine ⟨fun e he => by simp at he, fun p hp => ?_⟩
        injection hp with h
        subst h
        exact (readBytesNone_noPanic k hinv1).2 (bs, st2) h2

/-- `try_read_root` with sufficient fuel never panics: EOF is its only error,
and a parsed root comes with the invariant on the remaining state. -/
theorem tryReadRoot_noPanic {fuel : Nat} {st : RSt} (hinv : RInv st)
    (hlen : (rBits st).length < fuel) :
    (∀ e, tryReadRoot fuel st = .error e → e = Err.eof)
    ∧ ∀ root st', tryReadRoot fuel st = .ok (some (root, st')) → RInv st' := by
  rcases h1 : tryReadBits 1 st with _ | ⟨flag, st1⟩
  · have hred : tryReadRoot fuel st = .ok none := by
      simp [tryReadRoot, h1]
    rw [hred]
    exact ⟨fun e he => by simp at he, fun root st' hp => by simp at hp⟩
  · obtain ⟨hlen1, hinv1, hflag⟩ := tryReadBits_length le_rfl (by omega) hinv h1
    rcases (show flag = 0 ∨ flag = 1 by omega) with rfl | rfl
    · rcases h2 : tryReadByte st1 with _ | ⟨b, st2⟩
      · have hred : tryReadRoot fuel st = .error .eof := by
          simp [tryReadRoot, readByte, LEAF_FLAG, h1, h2]
        rw [hred]
        exact ⟨fun e he => by injection he with h; exact h.symm,
          fun root st' hp => by simp at hp⟩
      · obtain ⟨hlen2, hinv2, hb⟩ := tryReadByte_length hinv1 h2
        have hred : tryReadRoot fuel st = .ok (some (.Pair (.Leaf b) .Empty, st2)) := by
          simp [tryReadRoot, readByte, LEAF_FLAG, h1, h2]
        rw [hred]
        refine ⟨fun e he => by simp at he, fun root st' hp => ?_⟩
        injection hp with h
        injection h with h2
        injection h2 with h3 h4
        subst h4
        exact hinv2
    · have hst1 : (rBits st1).length < fuel := by omega
      rcases h2 : readNode fuel st1 with e2 | ⟨left, st2⟩
      · obtain rfl := (readNode_noPanic hinv1 hst1).1 e2 h2
        have hred : tryReadRoot fuel st = .error .eof := by
          simp [tryReadRoot, LEAF_FLAG, PAIR_FLAG, h1, h2]
        rw [hred]
        exact ⟨fun e he => by injection he with h; exact h.symm,
          fun root st' hp => by simp at hp⟩
      · obtain ⟨hinv2, hlen2⟩ := (readNode_noPanic hinv1 hst1).2 (left, st2) h2
        have hlen2' : (rBits st2).length < (rBits st1).length := hlen2
        have hst2 : (rBits st2).length < fuel := by omega
        rcases h3 : readNode fuel st2 with e3 | ⟨right, st3⟩
        · obtain rfl := (readNode_noPanic hinv2 hst2).1 e3 h3
          have hred : tryReadRoot fuel st = .error .eof := by
            simp [tryReadRoot, LEAF_FLAG, PAIR_FLAG, h1, h2, h3]
          rw [hred]
          exact ⟨fun e he => by injection he with h; exact h.symm,
            fun root st' hp => by simp at hp⟩
        · obtain ⟨hinv3, hlen3⟩ := (readNode_noPanic hinv2 hst2).2 (right, st3) h3
          have hred : tryReadRoot fuel st = .ok (some (.Pair left right, st3)) := by
            simp [tryReadRoot, LEAF_FLAG, PAIR_FLAG, h1, h2, h3]
          rw [hred]
          refine ⟨fun e he => by simp at he, fun root st' hp => ?_⟩
          injection hp with h
          injection h with h2
          injection h2 with h3' h4
          subst h4
          exact hinv3

/-- Every error `unpack_file` can return is EOF or `InvalidData`: no panic
path of the decoder is reachable on any byte-valued input. -/
theorem unpack_file_errors (input : List Nat) (hb : ∀ b ∈ input, b < 256) :
    ∀ e, unpack_file input = .error e → e = Err.eof ∨ e = Err.invalidData := by
  intro e he
  have hinv0 := RInv_init input hb
  have hlen0 : (rBits (RSt.init input)).length < 8 * input.length + 9 := by
    rw [rBits_init, bitsOfBytes_length]
    omega
  obtain ⟨tre, tro⟩ := tryReadRoot_noPanic hinv0 hlen0
  rcases h1 : tryReadRoot (8 * input.length + 9) (RSt.init input)
    with e1 | (_ | ⟨root, st1⟩)
  · obtain rfl := tre e1 h1
    have hred : unpack_file input = .error .eof := by
      simp [unpack_file, h1]
    rw [hred] at he
    injection he with h
    exact Or.inl h.symm
  · have hred : unpack_file input = .ok ([], 0) := by
      simp [unpack_file, h1]
    rw [hred] at he
    exact absurd he (by simp)
  · have hinv1 := tro root st1 h1
    rcases h2 : compactRead st1 with e2 | ⟨total, st2⟩
    · have h' := (compactRead_noPanic hinv1).1 e2 h2
      have hred : unpack_file input = .error e2 := by
        simp [unpack_file, h1, h2]
      rw [hred] at he
      injection he with h
      exact h ▸ h'
    · have hinv2 := (compactRead_noPanic hinv1).2 (total, st2) h2
      rcases h3 : decodeLoop root total st2 [] with e3 | ⟨out, st3⟩
      · have h' := decodeLoop_noPanic root total st2 [] hinv2 e3 h3
        have hred : unpack_file input = .error e3 := by
          simp [unpack_file, h1, h2, h3]
        rw [hred] at he
        injection he with h
        exact h ▸ h'
      · have hred : unpack_file input = .ok (out, total) := by
          simp [unpack_file, h1, h2, h3]
        rw [hred] at he
        exact absurd he (by simp)

/-- C2 (counterexample): a `write_bits(0, 0)` call writes nothing, so after
`flush` the sink is empty and reading back with the same width `0` returns
the EOF sentinel instead of the masked value `0`. -/
theorem C2_counterexample :
    readSeq ([(0, 0)].map Prod.snd) (RSt.init (flush (writeSeq [(0, 0)] WSt.init)).out)
      = none := by decide

/-- C2 (amended): for widths `1 ≤ n_i ≤ 8` and byte values `v_i < 256`,
writing `write_bits(v_i, n_i)` in order, flushing, and reading back with
`try_read_bits(n_i)` yields exactly the values `v_i` masked to their low
`n_i` bits, in the same order. -/
theorem C2_bit_io_roundtrip_amended (ops : List (Nat × Nat))
    (hops : ∀ p ∈ ops, 1 ≤ p.2 ∧ p.2 ≤ 8 ∧ p.1 < 256) :
    ∃ st', readSeq (ops.map Prod.snd) (RSt.init (flush (writeSeq ops WSt.init)).out)
      = some (ops.map (fun p => p.1 % 2 ^ p.2), st') := by
  obtain ⟨hw, hwinv⟩ := wBits_writeSeq
    (fun p hp => ⟨(hops p hp).2.1, fun _ => (hops p hp).2.2⟩) WSt.init WInv_init
  obtain ⟨hfb, hfc, hff, hfi⟩ := flush_spec hwinv
  have hr : rBits (RSt.init (flush (writeSeq ops WSt.init)).out)
      = opsBits ops
        ++ List.replicate ((8 - (writeSeq ops WSt.init).bit_cursor) % 8) false := by
    rw [rBits_init, hfb, hw, wBits_init, List.nil_append]
  obtain ⟨st', hread, hrest, hinv⟩ := readSeq_split
    (fun p hp => ⟨(hops p hp).1, (hops p hp).2.1⟩) _ (RInv_init _ hfi.2.2) _ hr
  exact ⟨st', hread⟩

theorem C2_witness :
    ∃ st', readSeq ([(5, 3), (255, 8)].map Prod.snd)
        (RSt.init (flush (writeSeq [(5, 3), (255, 8)] WSt.init)).out)
      = some ([(5, 3), (255, 8)].map (fun p => p.1 % 2 ^ p.2), st') :=
  C2_bit_io_roundtrip_amended [(5, 3), (255, 8)] (by decide)

/-- C3 (counterexample): on an already-exhausted source with an empty staging
buffer, `try_read_bits(0)` returns the EOF sentinel, not the value `0`. -/
theorem C3_counterexample : tryReadBits 0 (RSt.init []) = none := by decide

/-- C3 (amended): `try_read_bits(0)` returns `0` and leaves the state intact
only when a byte is already staged; with an empty staging buffer it first
fetches the next byte from the source (advancing the byte position), and on
an exhausted source it returns the EOF sentinel. -/
theorem C3_read_zero_amended (st : RSt) (hc : st.bit_cursor < 8) :
    tryReadBits 0 st
      = match st.bit_buff, st.input with
        | some _, _ => some (0, st)
        | none, x :: t => some (0, ⟨t, some x, st.bit_cursor⟩)
        | none, [] => none :=
  tryReadBits_zero st hc

theorem C3_witness :
    (RSt.init [7]).bit_cursor < 8
      ∧ tryReadBits 0 (RSt.init [7]) = some (0, ⟨[], some 7, 0⟩) :=
  ⟨by decide, C3_read_zero_amended (RSt.init [7]) (by decide)⟩

/-- C4: compact-u64 codec — the encoding of `v < 2^64` is one length byte
`k = max 1 (ceil (bitlen v / 8))` followed by exactly `k` little-endian
payload bytes (so `v = 0` encodes as `k = 1` and one zero byte), and decoding
the encoding yields `v` back. -/
theorem C4_compact_codec (v : Nat) (hv : v < 2 ^ 64) :
    (compactWrite v WSt.init).out
        = required_number_of_bytes v :: leBytes v (required_number_of_bytes v)
      ∧ (leBytes v (required_number_of_bytes v)).length = required_number_of_bytes v
      ∧ required_number_of_bytes v = max 1 ((Nat.size v + 7) / 8)
      ∧ (∃ st', compactRead (RSt.init (compactWrite v WSt.init).out) = .ok (v, st')) := by
  obtain ⟨hk1, hk8, hvk, hmin⟩ := required_spec hv
  have hout := compactWrite_out hv
  have hblt : ∀ x ∈ (required_number_of_bytes v :: leBytes v (required_number_of_bytes v)),
      x < 256 := by
    intro x hx
    rcases List.mem_cons.mp hx with rfl | hx
    · omega
    · exact leBytes_lt v _ x hx
  refine ⟨by rw [hout], leBytes_length _ _, ?_, ?_⟩
  · rcases hmin with h1 | hge
    · rw [h1] at hvk ⊢
      have hsz : Nat.size v ≤ 8 := Nat.size_le.mpr (by
        have h82 : (8 : Nat) * 1 = 8 := by norm_num
        rw [h82] at hvk
        exact hvk)
      omega
    · have hszle : Nat.size v ≤ 8 * required_number_of_bytes v := Nat.size_le.mpr hvk
      have hszgt : 8 * (required_number_of_bytes v - 1) < Nat.size v := Nat.lt_size.mpr hge
      omega
  · rw [hout]
    show ∃ st', compactRead (RSt.init (required_number_of_bytes v
        :: leBytes v (required_number_of_bytes v))) = .ok (v, st')
    have hr : rBits (RSt.init (required_number_of_bytes v
          :: leBytes v (required_number_of_bytes v)))
        = bitsOfBytes (required_number_of_bytes v
            :: leBytes v (required_number_of_bytes v)) ++ [] := by
      rw [rBits_init, List.append_nil]
    obtain ⟨st', hcr, hrest, hinv⟩ := compactRead_split hv (RInv_init _ hblt) hr
    exact ⟨st', hcr⟩

theorem C4_witness :
    ((compactWrite 0 WSt.init).out
        = required_number_of_bytes 0 :: leBytes 0 (required_number_of_bytes 0)
      ∧ (leBytes 0 (required_number_of_bytes 0)).length = required_number_of_bytes 0
      ∧ required_number_of_bytes 0 = max 1 ((Nat.size 0 + 7) / 8)
      ∧ (∃ st', compactRead (RSt.init (compactWrite 0 WSt.init).out) = .ok (0, st')))
    ∧ required_number_of_bytes 0 = 1 ∧ leBytes 0 (required_number_of_bytes 0) = [0] :=
  ⟨C4_compact_codec 0 (by decide), by decide, by decide⟩

/-- C5: malformed-data detection — a compact-u64 whose length-prefix byte `k`
exceeds 8 is rejected as `InvalidData` (from any reader state whose next 8
unread bits spell `k`), and the decode loop reaching the `Empty` sentinel
node fails with `InvalidData`. -/
theorem C5_malformed_data :
    (∀ (k : Nat) (st : RSt) (rest : List Bool), 8 < k → k < 256 → RInv st →
        rBits st = lowBitsLE 8 k ++ rest →
        compactRead st = .error .invalidData)
    ∧ ∀ st : RSt, decodeOne .Empty st = .error .invalidData := by
  refine ⟨fun k st rest hk8 hk256 hinv hr => ?_, fun st => rfl⟩
  obtain ⟨st1, hread, hrest1, hinv1⟩ := tryReadByte_split hinv hr (by simp)
  have hval : bitsToNat (lowBitsLE 8 k) = k := by
    rw [bitsToNat_lowBitsLE, Nat.mod_eq_of_lt (by omega)]
  simp [compactRead, readByte, hread, hval, hk8]

theorem C5_witness :
    compactRead (RSt.init [9]) = .error .invalidData
      ∧ decodeOne .Empty (RSt.init []) = .error .invalidData :=
  ⟨C5_malformed_data.1 9 (RSt.init [9]) [] (by decide) (by decide)
      (RInv_init [9] (by decide)) (by decide),
    C5_malformed_data.2 (RSt.init [])⟩

/-- A well-formed tree whose nodup leaf list holds only the symbol `s` is the
bare leaf `s`. -/
theorem root_leaf_of_single {root : HeapNode} (hwf : root.WFT) (hnd : root.leaves.Nodup)
    {s : Nat} (hmem : ∀ x, x ∈ root.leaves ↔ x = s) : root = .Leaf s := by
  cases root with
  | Leaf c =>
    have hc : c ∈ HeapNode.leaves (.Leaf c) := by simp [HeapNode.leaves]
    rw [(hmem c).mp hc]
  | Pair l r =>
    obtain ⟨hwl, hwr⟩ := hwf
    obtain ⟨a, ha⟩ : ∃ a, a ∈ l.leaves := by
      cases hl : l.leaves with
      | nil => exact absurd hl (leaves_ne_nil hwl)
      | cons x t => exact ⟨x, by simp [hl]⟩
    obtain ⟨a', ha'⟩ : ∃ a', a' ∈ r.leaves := by
      cases hl : r.leaves with
      | nil => exact absurd hl (leaves_ne_nil hwr)
      | cons x t => exact ⟨x, by simp [hl]⟩
    have h1 : a = s := (hmem a).mp (by
      simp only [HeapNode.leaves, List.mem_append]
      exact Or.inl ha)
    have h2 : a' = s := (hmem a').mp (by
      simp only [HeapNode.leaves, List.mem_append]
      exact Or.inr ha')
    subst h1
    subst h2
    have hnd' : (l.leaves ++ r.leaves).Nodup := by
      simpa [HeapNode.leaves] using hnd
    exact ((List.nodup_append.mp hnd').2.2 ha ha').elim
  | Empty => exact hwf.elim

/-- C6: single-symbol alphabet — with exactly one nonzero-count symbol the
builder returns the bare leaf root carrying that symbol with the 1-bit
codeword `0`, and the reader wraps a bare-leaf root into
`Pair(leaf, Empty)`. -/
theorem C6_single_symbol (T : Nat → Nat) (s : Nat) (hs : s < 256) (hTs : T s ≠ 0)
    (honly : ∀ x, x < 256 → x ≠ s → T x = 0) :
    (∃ codes, get_huffman_tree_and_codes T = some (.Leaf s, codes)
      ∧ codes s = some ⟨[0], 1⟩)
    ∧ ∀ (b : Nat), b < 256 → ∀ (fuel : Nat) (st : RSt), RInv st →
        ∀ rest : List Bool, rBits st = nodeBits (.Leaf b) ++ rest →
          ∃ st', tryReadRoot fuel st = .ok (some (.Pair (.Leaf b) .Empty, st'))
            ∧ rBits st' = rest ∧ RInv st' := by
  refine ⟨?_, fun b hb fuel st hinv rest hr => tryReadRoot_leaf hb hinv hr⟩
  obtain ⟨root, codes, hget, hwf, hnd, hmem, hcodes, hnone, hleaf⟩ :=
    get_huffman_spec T ⟨s, hs, hTs⟩
  have hmem' : ∀ x, x ∈ root.leaves ↔ x = s := by
    intro x
    rw [hmem x]
    constructor
    · rintro ⟨hx256, hxne⟩
      by_contra hne
      exact hxne (honly x hx256 hne)
    · rintro rfl
      exact ⟨hs, hTs⟩
  obtain rfl := root_leaf_of_single hwf hnd hmem'
  exact ⟨codes, hget, hleaf s rfl⟩

theorem C6_witness :
    (∃ codes, get_huffman_tree_and_codes (fun x => if x = 65 then 1 else 0)
        = some (.Leaf 65, codes) ∧ codes 65 = some ⟨[0], 1⟩)
    ∧ ∀ (b : Nat), b < 256 → ∀ (fuel : Nat) (st : RSt), RInv st →
        ∀ rest : List Bool, rBits st = nodeBits (.Leaf b) ++ rest →
          ∃ st', tryReadRoot fuel st = .ok (some (.Pair (.Leaf b) .Empty, st'))
            ∧ rBits st' = rest ∧ RInv st' :=
  C6_single_symbol (fun x => if x = 65 then 1 else 0) 65 (by decide) (by decide)
    (fun x hx hne => by simp [hne])

/-- C7: empty input — pack of a zero-length source emits no bytes and returns
count 0; unpack of a zero-length source decodes zero bytes with no error. -/
theorem C7_empty_input :
    pack_file [] = .ok ([], 0) ∧ unpack_file [] = .ok ([], 0) := by
  constructor
  · decide
  · decide

/-- C8: decoder totality — on every byte-valued input, unpack either succeeds
or fails with EOF or `InvalidData`; no panic (assertion, `unreachable!()`,
or recursion-fuel exhaustion) is reachable. -/
theorem C8_unpack_total (input : List Nat) (hb : ∀ b ∈ input, b < 256) :
    (∃ r, unpack_file input = .ok r)
      ∨ unpack_file input = .error .eof ∨ unpack_file input = .error .invalidData := by
  rcases hu : unpack_file input with e | r
  · rcases unpack_file_errors input hb e hu with rfl | rfl
    · exact Or.inr (Or.inl rfl)
    · exact Or.inr (Or.inr rfl)
  · exact Or.inl ⟨r, rfl⟩

theorem C8_witness :
    (∃ r, unpack_file [255] = .ok r)
      ∨ unpack_file [255] = .error .eof ∨ unpack_file [255] = .error .invalidData :=
  C8_unpack_total [255] (by decide)

/-- Decoding with the wrapped single-leaf tree over a run of `m` zero
(padding) bits: each decoded byte consumes one bit, so `n ≤ m` succeeds with
`n` copies of the leaf byte and `m < n` ends in EOF. -/
theorem decodeLoop_pad {b : Nat} : ∀ (n m : Nat) (st : RSt) (acc : List Nat),
    RInv st → rBits st = List.replicate m false →
      (n ≤ m → ∃ st', decodeLoop (.Pair (.Leaf b) .Empty) n st acc
          = .ok (acc ++ List.replicate n b, st'))
      ∧ (m < n → decodeLoop (.Pair (.Leaf b) .Empty) n st acc = .error .eof) := by
  intro n
  induction n with
  | zero =>
    intro m st acc hinv hr
    exact ⟨fun _ => ⟨st, by simp [decodeLoop]⟩, fun h => absurd h (by omega)⟩
  | succ n ihn =>
    intro m st acc hinv hr
    cases m with
    | zero =>
      have hfail := tryReadBits_fail (a := 1) (by norm_num) (by norm_num) hinv
        (by rw [hr]; simp)
      have hred : decodeLoop (.Pair (.Leaf b) .Empty) (n + 1) st acc = .error .eof := by
        simp [decodeLoop, decodeOne, readBits, hfail]
      exact ⟨fun h => absurd h (by omega), fun _ => hred⟩
    | succ m =>
      have hsplit : rBits st = [false] ++ List.replicate m false := by
        rw [hr]
        simp [List.replicate_succ]
      obtain ⟨st1, hread, hrest, hinv1⟩ := tryReadBits_split (a := 1) (by norm_num)
        (by norm_num) hinv hsplit (by simp)
      have hval : bitsToNat [false] = 0 := by decide
      have hone : decodeOne (.Pair (.Leaf b) .Empty) st = .ok (b, st1) := by
        simp [decodeOne, readBits, hread, hval, LEFT_BIT]
      have hred : decodeLoop (.Pair (.Leaf b) .Empty) (n + 1) st acc
          = decodeLoop (.Pair (.Leaf b) .Empty) n st1 (acc ++ [b]) := by
        simp [decodeLoop, hone]
      obtain ⟨ihok, iherr⟩ := ihn m st1 (acc ++ [b]) hinv1 hrest
      constructor
      · intro hle
        obtain ⟨st', hst'⟩ := ihok (by omega)
        refine ⟨st', ?_⟩
        rw [hred, hst']
        simp [List.replicate_succ, List.append_assoc]
      · intro hlt
        rw [hred]
        exact iherr (by omega)

/-- C9 (counterexample): the file built from a single-leaf header (byte 65),
declared count 1, and zero codeword bits is `[130, 2, 2, 0]`, and unpack
SUCCEEDS on it — decoding a flush padding bit as data — instead of failing
with EOF on the first data-bit read. -/
theorem C9_counterexample :
    (writeNode (.Leaf 65) WSt.init).map (fun st1 => (flush (compactWrite 1 st1)).out)
        = .ok [130, 2, 2, 0]
      ∧ unpack_file [130, 2, 2, 0] = .ok ([65], 1) := by
  constructor
  · decide
  · decide

/-- C9 (amended): a file holding a single-leaf header and a declared count
`N` with no codeword bits written carries exactly 7 zero padding bits from
the flush, and those decode as data: for `1 ≤ N ≤ 7` unpack succeeds with
`N` copies of the leaf byte, and only for `N ≥ 8` does it fail with EOF. -/
theorem C9_single_leaf_no_data_amended (b N : Nat) (hb : b < 256) (hN : N < 2 ^ 64)
    (st1 : WSt) (hw : writeNode (.Leaf b) WSt.init = .ok st1) :
    (1 ≤ N → N ≤ 7 →
      unpack_file (flush (compactWrite N st1)).out = .ok (List.replicate N b, N))
    ∧ (8 ≤ N → unpack_file (flush (compactWrite N st1)).out = .error .eof) := by
  obtain ⟨st1', hwn', hwb1, hwi1⟩ :=
    writeNode_spec (show (HeapNode.Leaf b).WFT from hb) WSt.init WInv_init
  rw [hw] at hwn'
  injection hwn' with heq
  subst heq
  obtain ⟨hwb2, hwi2⟩ := wBits_compactWrite hN hwi1
  obtain ⟨hfb, hfc, hff, hfi⟩ := flush_spec hwi2
  have hlenA : (wBits (compactWrite N st1)).length
      = 8 * (compactWrite N st1).out.length + (compactWrite N st1).bit_cursor := by
    simp [wBits, bitsOfBytes_length]
  have hlenB : (wBits (compactWrite N st1)).length
      = 17 + 8 * required_number_of_bytes N := by
    rw [hwb2, hwb1, wBits_init, List.nil_append]
    have h9 : (nodeBits (HeapNode.Leaf b)).length = 9 := by
      simp [nodeBits]
    rw [List.length_append, h9, bitsOfBytes_length]
    simp only [List.length_cons, leBytes_length]
    omega
  have hcur : (compactWrite N st1).bit_cursor = 1 := by
    have hclt : (compactWrite N st1).bit_cursor < 8 := hwi2.1
    omega
  have hbitseq : bitsOfBytes (flush (compactWrite N st1)).out
      = nodeBits (.Leaf b)
        ++ (bitsOfBytes (required_number_of_bytes N
            :: leBytes N (required_number_of_bytes N))
          ++ List.replicate 7 false) := by
    rw [hfb, hwb2, hwb1, wBits_init, List.nil_append, hcur, List.append_assoc]
  have hinv0 := RInv_init _ hfi.2.2
  have hr0 : rBits (RSt.init (flush (compactWrite N st1)).out)
      = nodeBits (.Leaf b)
        ++ (bitsOfBytes (required_number_of_bytes N
            :: leBytes N (required_number_of_bytes N))
          ++ List.replicate 7 false) := by
    rw [rBits_init, hbitseq]
  obtain ⟨st1r, hroot, hrb1, hinv1⟩ :=
    @tryReadRoot_leaf b hb (8 * (flush (compactWrite N st1)).out.length + 9)
      (RSt.init (flush (compactWrite N st1)).out) hinv0 _ hr0
  obtain ⟨st2r, hcr, hrb2, hinv2⟩ := compactRead_split hN hinv1 hrb1
  obtain ⟨hok, herr⟩ := @decodeLoop_pad b N 7 st2r [] hinv2 hrb2
  constructor
  · intro hN1 hN7
    obtain ⟨st', hst'⟩ := hok (by omega)
    simp [unpack_file, hroot, hcr, hst']
  · intro hN8
    have hfail := herr (by omega)
    simp [unpack_file, hroot, hcr, hfail]

theorem C9_witness :
    (1 ≤ 1 → 1 ≤ 7 → unpack_file (flush (compactWrite 1 (⟨[130], 0, 1⟩ : WSt))).out
        = .ok (List.replicate 1 65, 1))
    ∧ (8 ≤ 1 → unpack_file (flush (compactWrite 1 (⟨[130], 0, 1⟩ : WSt))).out
        = .error .eof) :=
  C9_single_leaf_no_data_amended 65 1 (by decide) (by decide) ⟨[130], 0, 1⟩ (by decide)

/-- C10: with at least two nonzero-count symbols, each assigned codeword
spells exactly the root-to-leaf path of its symbol in the returned tree
(bit 0 = left, bit 1 = right, root decision first), and consequently no
assigned codeword is a prefix of another symbol's codeword. -/
theorem C10_codes_spell_paths (T : Nat → Nat) (s1 s2 : Nat) (hs1 : s1 < 256)
    (hs2 : s2 < 256) (hne12 : s1 ≠ s2) (hT1 : T s1 ≠ 0) (hT2 : T s2 ≠ 0) :
    ∃ root codes, get_huffman_tree_and_codes T = some (root, codes)
      ∧ (∀ x, x < 256 → T x ≠ 0 → ∃ p hc, pathTo root x = some p
          ∧ codes x = some hc ∧ codeBits hc = p)
      ∧ ∀ x y hcx hcy, x ≠ y → codes x = some hcx → codes y = some hcy →
          ∀ s : List Bool, codeBits hcx ++ s ≠ codeBits hcy := by
  obtain ⟨root, codes, hget, hwf, hnd, hmem, hcodes, hnone, hleaf⟩ :=
    get_huffman_spec T ⟨s1, hs1, hT1⟩
  have hwrap : wrapRoot root = root := by
    cases root with
    | Leaf c =>
      have m1 : s1 ∈ HeapNode.leaves (.Leaf c) := (hmem s1).mpr ⟨hs1, hT1⟩
      have m2 : s2 ∈ HeapNode.leaves (.Leaf c) := (hmem s2).mpr ⟨hs2, hT2⟩
      simp [HeapNode.leaves] at m1 m2
      exact absurd (m1.trans m2.symm) hne12
    | Pair l r => rfl
    | Empty => exact hwf.elim
  refine ⟨root, codes, hget, ?_, ?_⟩
  · intro x hx hTx
    obtain ⟨p, hc, hp, hcx, hcb, hpc, hbl⟩ := hcodes x ((hmem x).mpr ⟨hx, hTx⟩)
    rw [hwrap] at hp
    exact ⟨p, hc, hp, hcx, hcb⟩
  · intro x y hcx hcy hxy hx hy s hs
    have hxl : x ∈ root.leaves := by
      by_contra hxl
      rw [hnone x hxl] at hx
      exact absurd hx (by simp)
    have hyl : y ∈ root.leaves := by
      by_contra hyl
      rw [hnone y hyl] at hy
      exact absurd hy (by simp)
    obtain ⟨px, hcx', hpx, hx', hbx, hpcx, hblx⟩ := hcodes x hxl
    obtain ⟨py, hcy', hpy, hy', hby, hpcy, hbly⟩ := hcodes y hyl
    rw [hx] at hx'
    rw [hy] at hy'
    injection hx' with hx''
    injection hy' with hy''
    subst hx''
    subst hy''
    rw [hbx, hby] at hs
    exact hxy (pathTo_prefix_eq (wrapRoot root) x y px py s hpx hpy hs).1

theorem C10_witness :
    ∃ root codes, get_huffman_tree_and_codes (fun x => if x < 2 then 1 else 0)
        = some (root, codes)
      ∧ (∀ x, x < 256 → (if x < 2 then 1 else 0) ≠ 0 → ∃ p hc, pathTo root x = some p
          ∧ codes x = some hc ∧ codeBits hc = p)
      ∧ ∀ x y hcx hcy, x ≠ y → codes x = some hcx → codes y = some hcy →
          ∀ s : List Bool, codeBits hcx ++ s ≠ codeBits hcy :=
  C10_codes_spell_paths (fun x => if x < 2 then 1 else 0) 0 1 (by decide) (by decide)
    (by decide) (by decide) (by decide)

end HuffmanFmt
